import Mathlib

/-!
# Verification of the Quizway_v2 document-to-quiz pipeline

A shallow embedding of the core of the Quizway_v2 repository
(`api/services/pdfService.js`, `api/services/quizService.js`,
`api/services/geminiService.js`) together with proofs about it.

JavaScript strings are modelled by Lean `String` (a list of Unicode code
points; JS is UTF-16, which agrees on the Basic Multilingual Plane — all
inputs considered here).  JS builtins used by the source (`trim`, `split`,
`join`, regex search/replace, `Set`, `JSON.parse`, `Math.random`,
`Math.ceil`) are modelled explicitly below; nondeterministic sources
(`Math.random`, the network oracle) become explicit parameters.
-/

set_option autoImplicit false
set_option maxRecDepth 8000

namespace Quizway

/-! ## Models of ECMAScript string builtins -/

/-- The ECMAScript whitespace class: the character set used by
`String.prototype.trim` and by the regex class `\s` (WhiteSpace ∪
LineTerminator): space, tab, LF, VT, FF, CR, NBSP, the Unicode space
separators, the line/paragraph separators and the BOM. -/
def jsWs (c : Char) : Bool :=
  c = ' ' || c = '\t' || c = '\n' || c = '\x0b' || c = '\x0c' || c = '\r' ||
  c = '\u00A0' || c = '\u1680' || ('\u2000' ≤ c && c ≤ '\u200A') ||
  c = '\u2028' || c = '\u2029' || c = '\u202F' || c = '\u205F' ||
  c = '\u3000' || c = '\uFEFF'

/-- The ECMAScript LineTerminator set (the characters the regex `.` does not
match when the `s` flag is absent). -/
def lineTermCh (c : Char) : Bool :=
  c = '\n' || c = '\r' || c = '\u2028' || c = '\u2029'

/-- The ECMAScript regex word-character class `\w` (also with the `u` flag):
ASCII letters, digits and underscore. -/
def wordChar (c : Char) : Bool :=
  ('a' ≤ c && c ≤ 'z') || ('A' ≤ c && c ≤ 'Z') || ('0' ≤ c && c ≤ '9') || c = '_'

/-- ASCII decimal digit (regex `\d`). -/
def isDigitCh (c : Char) : Bool := '0' ≤ c && c ≤ '9'

/-- ASCII upper-case letter (regex `[A-Z]`). -/
def isUpperAZ (c : Char) : Bool := 'A' ≤ c && c ≤ 'Z'

/-- Trim the ECMAScript whitespace set from both ends of a character list. -/
def trimL (l : List Char) : List Char := (l.dropWhile jsWs).rdropWhile jsWs

/-- Model of `String.prototype.trim`. -/
def jsStrTrim (s : String) : String := String.mk (trimL s.data)

/-- Model of `String.prototype.split(c)` for a one-character separator
(`'\n'`, `'\f'`): JS returns `[""]` on the empty string and keeps empty
segments, exactly like `List.splitOn`. -/
def strSplitChar (c : Char) (s : String) : List String :=
  (s.data.splitOn c).map String.mk

/-- Model of `Array.prototype.join(sep)`. -/
def strJoinWith (sep : String) (l : List String) : String :=
  String.mk (sep.data.intercalate (l.map String.data))

/-- `text.split('\n').map(l => l.trim())` -/
def jsLines (s : String) : List String := (strSplitChar '\n' s).map jsStrTrim

/-- `text.split('\n').map(l => l.trim()).filter(Boolean)` (a string is falsy
exactly when it is empty). -/
def jsLinesNB (s : String) : List String := (jsLines s).filter (· ≠ "")

/-- `lines.join('\n')` -/
def strJoinNL (l : List String) : String := strJoinWith "\n" l

/-- Model of `String.prototype.toLowerCase` (ASCII case mapping; the inputs
considered contain no characters with non-trivial Unicode case mapping). -/
def jsToLowerCase (s : String) : String := String.mk (s.data.map Char.toLower)

/-- Model of `String.prototype.slice(a, b)` for `0 ≤ a ≤ b`. -/
def strSlice (s : String) (a b : Nat) : String :=
  String.mk ((s.data.drop a).take (b - a))

/-- Model of `String.prototype.slice(0, n)`. -/
def strTake (n : Nat) (s : String) : String := String.mk (s.data.take n)

/-- Model of `Array.prototype.slice(-n)` (`n ≥ 1`): the last `min n len`
elements. -/
def takeLast {α : Type} (n : Nat) (l : List α) : List α := l.drop (l.length - n)

/-- If `w` is a prefix of `l`, return the remainder. -/
def prefixRest {α : Type} [DecidableEq α] : List α → List α → Option (List α)
  | [], l => some l
  | _ :: _, [] => none
  | a :: w, b :: l => if a = b then prefixRest w l else none

/-- Case-insensitive literal prefix strip: `w` is given lower-case, the input
is compared through `Char.toLower`. -/
def stripCI : List Char → List Char → Option (List Char)
  | [], l => some l
  | _ :: _, [] => none
  | a :: w, b :: l => if b.toLower = a then stripCI w l else none

/-- After a whole-word match, the regex `\b` requires the next character to be
a non-word character (or the end of the input). -/
def wordEndsOk : List Char → Bool
  | [] => true
  | c :: _ => !wordChar c

/-- Search for `w` (a nonempty all-word-character literal) as a whole word:
the model of `/\bw\b/.test(s)`.  `prevW` records whether the character just
before the current position is a word character. -/
def hasWordAux (w : List Char) : Bool → List Char → Bool
  | _, [] => false
  | prevW, c :: rest =>
    (!prevW &&
      (match prefixRest w (c :: rest) with
       | some r => wordEndsOk r
       | none => false))
    || hasWordAux w (wordChar c) rest

/-- Model of `/\bw\b/.test(s)` for a literal `w` made of word characters. -/
def containsWord (w : String) (s : String) : Bool := hasWordAux w.data false s.data

/-- JS `Set` iteration order is insertion order; converting a `Set` built from
a list back to an array keeps the first occurrence of each element. -/
def dedupFirst : List String → List String
  | [] => []
  | x :: rest => x :: (dedupFirst rest).filter (· ≠ x)

/-- Model of the global regex replace `s.replace(/\r\n/g, '\n')`
(left-to-right, non-overlapping). -/
def replaceCRLF : List Char → List Char
  | [] => []
  | '\r' :: '\n' :: rest => '\n' :: replaceCRLF rest
  | c :: rest => c :: replaceCRLF rest

/-! ## `api/services/pdfService.js` — text extraction -/

/-- `splitTextByApproxPages(text, numpages)`: split the text into `numpages`
slices of `Math.ceil(len / Math.max(1, numpages))` characters each, trimming
every slice. -/
def splitTextByApproxPages (text : String) (numpages : Nat) : List String :=
  let len := text.length
  let approxPer := (len + (max 1 numpages) - 1) / (max 1 numpages)
  (List.range numpages).map fun i =>
    jsStrTrim (strSlice text (i * approxPer) (i * approxPer + approxPer))

/-- `extractPagesText`: the decoder result (`pdf-parse`, an external
collaborator) is passed in as its `text` and `numpages` fields.  The text is
split on form feeds; if every chunk trims to empty the approximate split by
the reported page count is used; with `numpages = 0` the whole trimmed text
is returned as a single page. -/
def extractPagesText (text : String) (numpages : Nat) : List String :=
  let rawPages := (strSplitChar '\x0c' text).map
    fun s => jsStrTrim (String.mk (replaceCRLF s.data))
  let cleaned := rawPages.filter (· ≠ "")
  if cleaned.isEmpty then
    if 0 < numpages then splitTextByApproxPages text numpages
    else [jsStrTrim text]
  else cleaned

/-! ## `api/services/pdfService.js` — normalization and header/footer removal -/

/-- `normalizePageText`: trim each line and drop blank lines. -/
def normalizePageText (s : String) : String := strJoinNL (jsLinesNB s)

def MAX_HEADER_FOOTER_SAMPLE_PAGES : Nat := 8

/-- `isLikelyHeaderFooter(line)`: short line that carries a page/chapter/
contents keyword, a publisher-like keyword, or ends in digits. -/
def isLikelyHeaderFooter (line : String) : Bool :=
  if line.length < 3 then false
  else if 120 < line.length then false
  else
    let lower := jsToLowerCase line
    if containsWord "page" lower || containsWord "chapter" lower ||
       containsWord "contents" lower then true
    else if containsWord "publisher" lower || containsWord "press" lower ||
            containsWord "university" lower || containsWord "department" lower then true
    -- `/\d{1,4}$/.test(line.trim())` holds exactly when the trimmed line ends
    -- in a digit (a one-digit suffix already witnesses the test).
    else match (jsStrTrim line).data.getLast? with
         | some c => isDigitCh c
         | none => false

/-- First two non-blank lines of each of the first
`min pages.length MAX_HEADER_FOOTER_SAMPLE_PAGES` pages (the multiset of
header candidates; the JS dictionary counts occurrences across these lists). -/
def headerCandidateLines (pages : List String) : List String :=
  (pages.take (min pages.length MAX_HEADER_FOOTER_SAMPLE_PAGES)).flatMap
    fun text => (jsLinesNB text).take 2

/-- Last two non-blank lines of each sampled page. -/
def footerCandidateLines (pages : List String) : List String :=
  (pages.take (min pages.length MAX_HEADER_FOOTER_SAMPLE_PAGES)).flatMap
    fun text => takeLast 2 (jsLinesNB text)

/-- `Math.max(1, Math.floor(sampleCount * 0.5))` -/
def headerThresholdOf (sampleCount : Nat) : Nat := max 1 (sampleCount / 2)

/-- Promote the candidate lines that recur at least `threshold` times among
the candidates and look like boilerplate.  `Object.entries` iterates keys in
insertion order, i.e. first-occurrence order. -/
def promotedLines (cands : List String) (threshold : Nat) : List String :=
  (dedupFirst cands).filter fun l =>
    decide (threshold ≤ cands.count l) && isLikelyHeaderFooter l

def promotedHeaders (pages : List String) : List String :=
  promotedLines (headerCandidateLines pages)
    (headerThresholdOf (min pages.length MAX_HEADER_FOOTER_SAMPLE_PAGES))

def promotedFooters (pages : List String) : List String :=
  promotedLines (footerCandidateLines pages)
    (headerThresholdOf (min pages.length MAX_HEADER_FOOTER_SAMPLE_PAGES))

/-- Strip promoted header lines from the top and promoted footer lines from
the bottom of one page (`while … shift()` / `while … pop()`), then re-join. -/
def stripPage (headers footers : List String) (text : String) : String :=
  let lines := jsLines text
  let l1 := lines.dropWhile (fun l => headers.contains l)
  let l2 := l1.rdropWhile (fun l => footers.contains l)
  jsStrTrim (strJoinNL l2)

structure HeaderFooterInfo where
  headers : List String
  footers : List String
deriving DecidableEq

structure RRHFResult where
  pagesWithoutHeaderFooter : List String
  headerFooterInfo : HeaderFooterInfo
deriving DecidableEq

/-- `removeRepeatingHeadersFooters(pages)` -/
def removeRepeatingHeadersFooters (pages : List String) : RRHFResult :=
  let headers := promotedHeaders pages
  let footers := promotedFooters pages
  { pagesWithoutHeaderFooter := pages.map (stripPage headers footers),
    headerFooterInfo := { headers := headers, footers := footers } }

/-! ## `api/services/pdfService.js` — heading detection

`detectHeading` uses the regex
`^((?:\d+\.)+\d*|\d+)(?:\)|\.|\:)?\s+(.+)$` (numbered headings), the regex
`^\s*chapter\s+([ivx\d]+)\b\.?\s*(.*)$/i` (chapter headings), an all-caps
test and a title-case heuristic.  The two regexes are modelled by explicit
matchers; backtracking is spelled out where it can matter and justified in
comments where it cannot. -/

/-- All prefixes of `l` of the form `(\d+\.)+` (at least one `digits '.'`
unit), shortest first; each entry is the list of consumed characters.
`sawDigit` records whether the current unit already has a digit, `acc` the
characters consumed so far. -/
def repPrefixesGo (sawDigit : Bool) (acc : List Char) : List Char → List (List Char)
  | [] => []
  | c :: rest =>
    if isDigitCh c then repPrefixesGo true (acc ++ [c]) rest
    else if c = '.' && sawDigit then (acc ++ [c]) :: repPrefixesGo false (acc ++ [c]) rest
    else []

def repPrefixes (l : List Char) : List (List Char) := repPrefixesGo false [] l

/-- Match `\s+(.+)$` against `l` and return the group.  `\s+` is greedy; it
gives characters back to `(.+)` only when the remainder after the whitespace
run is empty (then the group is the last whitespace character, provided it is
not a line terminator — `.` does not match line terminators). -/
def tailMatch (l : List Char) : Option (List Char) :=
  let run := l.takeWhile jsWs
  let rest := l.dropWhile jsWs
  if run.isEmpty then none
  else if !rest.isEmpty then
    if rest.all (fun c => !lineTermCh c) then some rest else none
  else
    match run.getLast? with
    | some c => if 2 ≤ run.length && !lineTermCh c then some [c] else none
    | none => none

/-- Match `(?:\)|\.|\:)?\s+(.+)$` against `after`: the optional punctuation
is preferred when present, falling back to not consuming it. -/
def tryPunct (after : List Char) : Option (List Char) :=
  match after with
  | [] => none
  | p :: rest =>
    if p = ')' || p = '.' || p = ':' then
      match tailMatch rest with
      | some g => some g
      | none => tailMatch after
    else tailMatch after

/-- The alternatives for group 1 of the numbered-heading regex, in the order
the backtracking engine tries them: branch `(?:\d+\.)+\d*` with the unit
count from greedy down, then branch `\d+`.  Inside a branch `\d*`/`\d+` are
taken maximal: giving a digit back would leave a digit as the next character,
which can match neither the optional punctuation nor `\s+`. -/
def numberedAlternatives (t : List Char) : List (List Char × List Char) :=
  let branch1 := ((repPrefixes t).reverse).map fun rp =>
    let after0 := t.drop rp.length
    let d2 := after0.takeWhile isDigitCh
    (rp ++ d2, after0.drop d2.length)
  let d := t.takeWhile isDigitCh
  branch1 ++ (if d.isEmpty then [] else [(d, t.drop d.length)])

/-- First alternative whose tail matches; returns (group 1, group 2). -/
def firstNumberedMatch : List (List Char × List Char) → Option (List Char × List Char)
  | [] => none
  | (num, after) :: more =>
    match tryPunct after with
    | some g2 => some (num, g2)
    | none => firstNumberedMatch more

/-- The class `[ivx\d]` under the `i` flag. -/
def isChapNumCh (c : Char) : Bool :=
  c.toLower = 'i' || c.toLower = 'v' || c.toLower = 'x' || isDigitCh c

/-- Model of `trimmed.match(/^\s*chapter\s+([ivx\d]+)\b\.?\s*(.*)$/i)`,
returning (group 1, group 2).  The quantifiers are taken maximal: giving
back characters from `\s*`/`[ivx\d]+` leaves a character that the following
piece cannot match, and `(.*)$` fails only when a line terminator remains,
independently of how `\.?\s*` split the input. -/
def chapMatch (t : List Char) : Option (List Char × List Char) :=
  let l := t.dropWhile jsWs
  match stripCI "chapter".data l with
  | none => none
  | some r =>
    if (r.takeWhile jsWs).isEmpty then none
    else
      let r2 := r.dropWhile jsWs
      let num := r2.takeWhile isChapNumCh
      if num.isEmpty then none
      else
        let r3 := r2.drop num.length
        if wordEndsOk r3 then
          let r4 := match r3 with
                    | '.' :: rr => rr
                    | _ => r3
          let r5 := r4.dropWhile jsWs
          if r5.all (fun c => !lineTermCh c) then some (num, r5) else none
        else none

/-- Model of `s.split(/\s+/)`: segments between maximal whitespace runs; a
leading (trailing) run produces a leading (trailing) empty segment, as in
JS.  `skip` records that the scanner is inside a separator run. -/
def splitWsGo : Bool → List Char → List (List Char)
  | _, [] => [[]]
  | skip, c :: rest =>
    if jsWs c then
      if skip then splitWsGo true rest
      else [] :: splitWsGo true rest
    else
      match splitWsGo false rest with
      | s :: ss => (c :: s) :: ss
      | [] => [[c]]

def splitWsRuns (l : List Char) : List (List Char) := splitWsGo false l

structure Heading where
  title : String
  level : Nat
deriving DecidableEq

/-- `detectHeading(line)` -/
def detectHeading (line : String) : Option Heading :=
  let trimmed := jsStrTrim line
  if trimmed = "" then none
  else
    match firstNumberedMatch (numberedAlternatives trimmed.data) with
    | some (numbering, titleText) =>
      some { title := jsStrTrim (String.mk numbering ++ " " ++ String.mk titleText),
             level := numbering.count '.' + 1 }
    | none =>
    match chapMatch trimmed.data with
    | some (num, rest) =>
      some { title := jsStrTrim ("Chapter " ++ String.mk num ++
               (if rest.isEmpty then "" else " " ++ String.mk rest)),
             level := 1 }
    | none =>
      let t := trimmed.data
      -- `/^[\p{L}\d\W\s]+$/u` accepts exactly the characters other than `_`
      -- (every non-word character is in `\W`; word characters are letters,
      -- digits or `_`).
      let isAllCaps := t.all (· ≠ '_') && decide (t.map Char.toUpper = t) &&
        decide (2 < t.length) && decide (t.length ≤ 120)
      -- `trimmed.split(' ').length` is the number of spaces plus one.
      let shortEnough := decide (t.length ≤ 120) && decide (t.count ' ' + 1 ≤ 10)
      if isAllCaps && shortEnough then some { title := trimmed, level := 1 }
      else
        let words := splitWsRuns t
        let titleCaseWords := words.filter fun w =>
          match w with
          | c :: _ => isUpperAZ c
          | [] => false
        -- `titleCaseWords.length / Math.max(1, words.length) >= 0.6`,
        -- with 0.6 = 3/5 (exact for the ratios with ≤ 8 words).
        if words.length ≤ 8 && decide (6 * max 1 words.length ≤ 10 * titleCaseWords.length) then
          some { title := trimmed, level := 2 }
        else none

/-- `normalizeTitle(t)`: `t.replace(/\s+$/, '').replace(/\.+$/, '')`. -/
def normalizeTitle (t : String) : String :=
  String.mk ((t.data.rdropWhile jsWs).rdropWhile (· = '.'))

/-- Model of the global replace `/\n{3,}/g → '\n\n'`: every maximal run of
at least three newlines becomes two.  `pending` counts the newlines of the
current run, emitted when the run ends. -/
def collapseNLGo (pending : Nat) : List Char → List Char
  | [] => List.replicate (if 3 ≤ pending then 2 else pending) '\n'
  | c :: rest =>
    if c = '\n' then collapseNLGo (pending + 1) rest
    else List.replicate (if 3 ≤ pending then 2 else pending) '\n' ++ (c :: collapseNLGo 0 rest)

def collapseNL (l : List Char) : List Char := collapseNLGo 0 l

/-! ## `api/services/pdfService.js` — section extraction -/

def DEFAULT_MIN_SECTION_CHARS : Nat := 120

structure PageObj where
  page : Nat
  text : String
deriving DecidableEq

/-- Image objects carry page/data/mime/filename fields; only the `page` field
is read by the section extractor, so only it is modelled. -/
structure ImageObj where
  page : Nat
deriving DecidableEq

structure SecMid where
  title : String
  rawHeading : String
  level : Nat
  content : String
  startPage : Nat
  endPage : Nat
  images : List ImageObj
deriving DecidableEq

structure SecOut where
  title : String
  level : Nat
  content : String
  startPage : Nat
  endPage : Nat
  images : List ImageObj
deriving DecidableEq

/-- `linesWithPage`: all trimmed non-blank lines of all pages, each tagged
with its page number. -/
def pageLinesOf (pageObjects : List PageObj) : List (Nat × String) :=
  pageObjects.flatMap fun p => (jsLinesNB p.text).map (fun l => (p.page, l))

structure Cand where
  index : Nat
  line : String
  page : Nat
  title : String
  level : Nat
deriving DecidableEq

/-- The heading candidates, scanning `linesWithPage` in order and recording
each line's index. -/
def candidatesAux (i : Nat) : List (Nat × String) → List Cand
  | [] => []
  | (pg, ln) :: rest =>
    match detectHeading ln with
    | some h => ⟨i, ln, pg, h.title, h.level⟩ :: candidatesAux (i + 1) rest
    | none => candidatesAux (i + 1) rest

def candidatesOf (lines : List (Nat × String)) : List Cand := candidatesAux 0 lines

/-- Lines with indices in the inclusive range `[a, b]`. -/
def sliceLines (L : List (Nat × String)) (a b : Nat) : List String :=
  ((L.drop a).take (b + 1 - a)).map (·.2)

/-- One section from a heading candidate up to (but not including) line
`endLineIdx + 1`. -/
def mkSecMid (L : List (Nat × String)) (allImages : List ImageObj)
    (curr : Cand) (endLineIdx : Nat) (endPage : Nat) : SecMid :=
  let sectionLines := sliceLines L (curr.index + 1) endLineIdx
  { title := if curr.title ≠ "" then curr.title else curr.line,
    rawHeading := curr.line,
    level := if curr.level ≠ 0 then curr.level else 1,
    content := jsStrTrim (strJoinNL sectionLines),
    startPage := curr.page,
    endPage := endPage,
    images := allImages.filter fun img =>
      decide (curr.page ≤ img.page) && decide (img.page ≤ endPage) }

/-- The page number stored at index `i` of `linesWithPage` (the source
indexes the array directly; every access is in range). -/
def pageAt (L : List (Nat × String)) (i : Nat) : Nat :=
  ((L.get? i).getD (0, "")).1

/-- The per-candidate section loop. -/
def buildSections (L : List (Nat × String)) (allImages : List ImageObj) :
    List Cand → List SecMid
  | [] => []
  | [c] => [mkSecMid L allImages c (L.length - 1) (pageAt L (L.length - 1))]
  | c :: c' :: rest =>
    mkSecMid L allImages c (c'.index - 1) (pageAt L c'.index) ::
      buildSections L allImages (c' :: rest)

/-- `(sec.content + '\n\n' + next.content).trim()`, `startPage` the minimum,
images concatenated. -/
def mergeInto (s t : SecMid) : SecMid :=
  { t with
    content := jsStrTrim (s.content ++ "\n\n" ++ t.content),
    startPage := min t.startPage s.startPage,
    images := s.images ++ t.images }

/-- The merge pass: a section whose content is shorter than `m` is merged
into the next one; the final section is always kept.  `cur` is the section
currently under consideration (possibly already grown by earlier merges). -/
def mergeSmallGo (m : Nat) (cur : SecMid) : List SecMid → List SecMid
  | [] => [cur]
  | t :: rest =>
    if cur.content.length < m then mergeSmallGo m (mergeInto cur t) rest
    else cur :: mergeSmallGo m t rest

def mergeSmall (m : Nat) : List SecMid → List SecMid
  | [] => []
  | s :: rest => mergeSmallGo m s rest

/-- The final normalization map over merged sections. -/
def normalizeSec (s : SecMid) : SecOut :=
  { title := normalizeTitle s.title,
    level := max 1 s.level,
    content := jsStrTrim (String.mk (collapseNL s.content.data)),
    startPage := s.startPage,
    endPage := s.endPage,
    images := s.images }

/-- `extractSectionsFromPagesWithAssets(pageObjects, opts)`: `opts` is passed
as its `minSectionChars` (JS `opts.minSectionChars || 120`, so `0` selects
the default) and `allImages` fields.  When no heading is detected a single
"Full Document" section is returned (the source builds that object without
an `images` key, modelled as the empty list). -/
def extractSectionsFromPagesWithAssets (pageObjects : List PageObj)
    (minSectionChars : Nat) (allImages : List ImageObj) : List SecOut :=
  let minChars := if minSectionChars ≠ 0 then minSectionChars else DEFAULT_MIN_SECTION_CHARS
  let L := pageLinesOf pageObjects
  match candidatesOf L with
  | [] =>
    [{ title := "Full Document",
       level := 1,
       content := strJoinWith "\n\n" (pageObjects.map (·.text)),
       startPage := ((pageObjects.head?).map (·.page)).getD 1,
       endPage := match pageObjects.getLast? with
                  | some p => p.page
                  | none => pageObjects.length,
       images := [] }]
  | c :: cs =>
    (mergeSmall minChars (buildSections L allImages (c :: cs))).map normalizeSec

/-! ## JavaScript values and `JSON.parse`

`JSON.parse` is the ECMAScript builtin used by `quizService.js`; it is
modelled by a recursive-descent parser of the JSON grammar.  Numbers are kept
as exact rationals (JS rounds them to binary64; the difference only shows
beyond 15–16 significant digits and does not affect anything proved here). -/

inductive Json where
  | null : Json
  | bool (b : Bool) : Json
  | num (v : Rat) : Json
  | str (s : String) : Json
  | arr (elems : List Json) : Json
  | obj (fields : List (String × Json)) : Json

/-- JSON whitespace (`JSON.parse` accepts exactly these four). -/
def jsonWsCh (c : Char) : Bool := c = ' ' || c = '\t' || c = '\n' || c = '\r'

def skipJsonWs (l : List Char) : List Char := l.dropWhile jsonWsCh

def hexVal (c : Char) : Option Nat :=
  let k := c.toNat
  if 48 ≤ k && k ≤ 57 then some (k - 48)
  else if 97 ≤ k && k ≤ 102 then some (k - 87)
  else if 65 ≤ k && k ≤ 70 then some (k - 55)
  else none

def escChar (e : Char) : Option Char :=
  if e = '"' then some '"'
  else if e = '\\' then some '\\'
  else if e = '/' then some '/'
  else if e = 'b' then some '\x08'
  else if e = 'f' then some '\x0c'
  else if e = 'n' then some '\n'
  else if e = 'r' then some '\r'
  else if e = 't' then some '\t'
  else none

/-- Parse a JSON string body (after the opening quote): returns the decoded
characters and the input after the closing quote.  Raw control characters
are rejected; `\uXXXX` yields the code point (surrogate pairs, which cannot
occur in the inputs treated here, are out of the model). -/
def parseJStringBody : List Char → Option (List Char × List Char)
  | [] => none
  | c :: rest =>
    if c = '"' then some ([], rest)
    else if c = '\\' then
      match rest with
      | [] => none
      | e :: r =>
        if e = 'u' then
          match r with
          | h1 :: h2 :: h3 :: h4 :: r2 =>
            match hexVal h1, hexVal h2, hexVal h3, hexVal h4 with
            | some a, some b, some c3, some d =>
              match parseJStringBody r2 with
              | some (cs, rest2) =>
                some (Char.ofNat (((a * 16 + b) * 16 + c3) * 16 + d) :: cs, rest2)
              | none => none
            | _, _, _, _ => none
          | _ => none
        else
          match escChar e with
          | some ec =>
            match parseJStringBody r with
            | some (cs, rest2) => some (ec :: cs, rest2)
            | none => none
          | none => none
    else if c.toNat < 0x20 then none
    else
      match parseJStringBody rest with
      | some (cs, rest2) => some (c :: cs, rest2)
      | none => none

def digitsToNat (l : List Char) : Nat :=
  l.foldl (fun a c => a * 10 + (c.toNat - '0'.toNat)) 0

/-- Parse a JSON number `-?(0|[1-9]\d*)(\.\d+)?([eE][+-]?\d+)?` as an exact
rational. -/
def parseJNumber (l : List Char) : Option (Rat × List Char) :=
  let (neg, l1) := match l with
                   | '-' :: r => (true, r)
                   | _ => (false, l)
  let intDigits := l1.takeWhile isDigitCh
  if intDigits.isEmpty then none
  else if 2 ≤ intDigits.length && intDigits.head? = some '0' then none
  else
    let l2 := l1.dropWhile isDigitCh
    let fracStep : Option (List Char × List Char) :=
      match l2 with
      | '.' :: r =>
        let fd := r.takeWhile isDigitCh
        if fd.isEmpty then none else some (fd, r.dropWhile isDigitCh)
      | _ => some ([], l2)
    match fracStep with
    | none => none
    | some (fd, l3) =>
      let expStep : Option (Int × List Char) :=
        match l3 with
        | e :: r =>
          if e = 'e' || e = 'E' then
            let (eneg, r1) := match r with
                              | '+' :: r2 => (false, r2)
                              | '-' :: r2 => (true, r2)
                              | _ => (false, r)
            let ed := r1.takeWhile isDigitCh
            if ed.isEmpty then none
            else some (if eneg then -(digitsToNat ed : Int) else (digitsToNat ed : Int),
                       r1.dropWhile isDigitCh)
          else some (0, l3)
        | [] => some (0, l3)
      match expStep with
      | none => none
      | some (ex, l4) =>
        let m : Nat := digitsToNat intDigits * 10 ^ fd.length + digitsToNat fd
        let sgn : Int := if neg then -(m : Int) else (m : Int)
        let v : Rat :=
          if 0 ≤ ex then mkRat (sgn * 10 ^ ex.toNat) (10 ^ fd.length)
          else mkRat sgn (10 ^ fd.length * 10 ^ (-ex).toNat)
        some (v, l4)

mutual

def parseJValue : Nat → List Char → Option (Json × List Char)
  | 0, _ => none
  | fuel + 1, l0 =>
    let l := skipJsonWs l0
    match l with
    | [] => none
    | c :: rest =>
      if c = '\x7b' then
        match skipJsonWs rest with
        | '\x7d' :: r2 => some (.obj [], r2)
        | r => match parseJMembers fuel r with
               | some (fs, r2) => some (.obj fs, r2)
               | none => none
      else if c = '[' then
        match skipJsonWs rest with
        | ']' :: r2 => some (.arr [], r2)
        | r => match parseJElems fuel r with
               | some (es, r2) => some (.arr es, r2)
               | none => none
      else if c = '"' then
        match parseJStringBody rest with
        | some (cs, r2) => some (.str (String.mk cs), r2)
        | none => none
      else
        match prefixRest "true".data l with
        | some r2 => some (.bool true, r2)
        | none =>
          match prefixRest "false".data l with
          | some r2 => some (.bool false, r2)
          | none =>
            match prefixRest "null".data l with
            | some r2 => some (.null, r2)
            | none =>
              match parseJNumber l with
              | some (v, r2) => some (.num v, r2)
              | none => none

def parseJElems : Nat → List Char → Option (List Json × List Char)
  | 0, _ => none
  | fuel + 1, l =>
    match parseJValue fuel l with
    | none => none
    | some (v, r) =>
      match skipJsonWs r with
      | ',' :: r2 =>
        match parseJElems fuel r2 with
        | some (vs, r3) => some (v :: vs, r3)
        | none => none
      | ']' :: r2 => some ([v], r2)
      | _ => none

def parseJMembers : Nat → List Char → Option (List (String × Json) × List Char)
  | 0, _ => none
  | fuel + 1, l0 =>
    match skipJsonWs l0 with
    | '"' :: rest =>
      match parseJStringBody rest with
      | none => none
      | some (k, r) =>
        match skipJsonWs r with
        | ':' :: r2 =>
          match parseJValue fuel r2 with
          | none => none
          | some (v, r3) =>
            match skipJsonWs r3 with
            | ',' :: r4 =>
              match parseJMembers fuel r4 with
              | some (fs, r5) => some ((String.mk k, v) :: fs, r5)
              | none => none
            | '\x7d' :: r4 => some ([(String.mk k, v)], r4)
            | _ => none
        | _ => none
    | _ => none

end

/-- Model of `JSON.parse` (`none` = the builtin throws).  The fuel
`2·length + 8` dominates the recursion depth: every nested call follows the
consumption of at least one character, at most two calls per character. -/
def jsonParse (s : String) : Option Json :=
  match parseJValue (2 * s.data.length + 8) s.data with
  | some (v, r) => if (skipJsonWs r).isEmpty then some v else none
  | none => none

/-- Property access `j[k]`: only objects have string-keyed fields; with
duplicate keys `JSON.parse` keeps the last, which the fold realizes. -/
def getField (j : Json) (k : String) : Option Json :=
  match j with
  | .obj fs => fs.foldl (fun acc kv => if kv.1 = k then some kv.2 else acc) none
  | _ => none

/-- JS truthiness of a JSON value. -/
def jsTruthy : Json → Bool
  | .null => false
  | .bool b => b
  | .num v => decide (v ≠ 0)
  | .str s => decide (s ≠ "")
  | .arr _ => true
  | .obj _ => true

/-- Truthiness of `j[k]` (`none` models `undefined`). -/
def jsTruthyOpt : Option Json → Bool
  | none => false
  | some j => jsTruthy j

/-- `typeof x === "object"` (true for objects, arrays and `null`). -/
def isObjTypeof : Json → Bool
  | .null => true
  | .arr _ => true
  | .obj _ => true
  | _ => false

/-! ## `api/services/quizService.js` — response normalization -/

/-- First index at which `needle` occurs as a contiguous sublist. -/
def findSubIdx (needle : List Char) : List Char → Option Nat
  | [] => if needle.isEmpty then some 0 else none
  | c :: rest =>
    if (prefixRest needle (c :: rest)).isSome then some 0
    else (findSubIdx needle rest).map (· + 1)

/-- The regex `/```(?:json)?\s*([\s\S]*?)\s*```/i` scanned from each start
position in order.  At the first fence with a closing fence after it, the
greedy `\s*`s and the lazy group make the capture the text up to the first
closing fence with the regex whitespace stripped at both ends.  Consuming
the optional `json` tag never changes whether a closing fence exists, since
no fence can start inside the four tag letters. -/
def fenceSearch : List Char → Option String
  | [] => none
  | c :: rest =>
    match prefixRest "```".data (c :: rest) with
    | some r =>
      let r1 := match stripCI "json".data r with
                | some r2 => r2
                | none => r
      match findSubIdx "```".data r1 with
      | some f => some (String.mk (trimL (r1.take f)))
      | none => fenceSearch rest
    | none => fenceSearch rest

/-- `findJsonCodeBlock(s)`: `m && m[1] ? m[1].trim() : null`. -/
def findJsonCodeBlock (s : String) : Option String :=
  match fenceSearch s.data with
  | some cap => if cap ≠ "" then some (jsStrTrim cap) else none
  | none => none

/-- The scanning loop of `findBalanced`: depth tracking for one bracket kind,
accumulating the scanned characters; returns the slice ending where the depth
returns to zero. -/
def findBalancedAux (openC closeC : Char) : Nat → List Char → List Char → Option (List Char)
  | _, _, [] => none
  | depth, acc, c :: rest =>
    if c = openC then findBalancedAux openC closeC (depth + 1) (acc ++ [c]) rest
    else if c = closeC then
      if depth = 1 then some (acc ++ [c])
      else findBalancedAux openC closeC (depth - 1) (acc ++ [c]) rest
    else findBalancedAux openC closeC depth (acc ++ [c]) rest

/-- `findBalanced(s)`: from the first `{` or `[`, the balanced-bracket
substring of the same bracket kind. -/
def findBalanced (s : String) : Option String :=
  match s.data.dropWhile (fun c => !(c = '\x7b' || c = '[')) with
  | [] => none
  | c :: rest =>
    let closeC := if c = '\x7b' then '\x7d' else ']'
    (findBalancedAux c closeC 0 [] (c :: rest)).map String.mk

/-- `lastIndexOf` as in JS: `-1` when absent. -/
def jsLastIndexOf (c : Char) (l : List Char) : Int :=
  match l.reverse.findIdx? (· = c) with
  | some i => ((l.length - 1 - i : Nat) : Int)
  | none => -1

/-- One-pass model of the global replace `s.replace(/,\s*([}\]])/g, "$1")`.
`pending = some buf` records that a comma followed by the whitespace `buf`
has been read and may still complete a match: a closing bracket completes it
(the comma and whitespace are dropped), any other character abandons it (the
regex scan resumes after the comma, and no match can start inside the
whitespace, which contains no comma). -/
def stripTrailingCommasGo : Option (List Char) → List Char → List Char
  | none, [] => []
  | some buf, [] => ',' :: buf
  | none, c :: rest =>
    if c = ',' then stripTrailingCommasGo (some []) rest
    else c :: stripTrailingCommasGo none rest
  | some buf, c :: rest =>
    if c = '\x7d' || c = ']' then c :: stripTrailingCommasGo none rest
    else if jsWs c then stripTrailingCommasGo (some (buf ++ [c])) rest
    else if c = ',' then (',' :: buf) ++ stripTrailingCommasGo (some []) rest
    else (',' :: buf) ++ (c :: stripTrailingCommasGo none rest)

def stripTrailingCommasL (l : List Char) : List Char := stripTrailingCommasGo none l

/-- Strip `[\x00-\x08\x0B\x0C\x0E-\x1F]` (control characters other than tab,
LF and CR). -/
def stripCtrlL (l : List Char) : List Char :=
  l.filter fun c =>
    !(c.toNat ≤ 8 || c.toNat = 0xB || c.toNat = 0xC ||
      (0xE ≤ c.toNat && c.toNat ≤ 0x1F))

def isOpenBr (c : Char) : Bool := c = '\x7b' || c = '['

def isCloseBr (c : Char) : Bool := c = '\x7d' || c = ']'

/-- `const first = s.search(/[\x7b\[]/); if (first !== -1) s = s.slice(first)`. -/
def cutToFirstBracket (s1 : String) : String :=
  match s1.data.findIdx? isOpenBr with
  | some i => String.mk (s1.data.drop i)
  | none => s1

/-- `const lastClose = Math.max(s.lastIndexOf("\x7d"), s.lastIndexOf("]"));
if (lastClose !== -1) s = s.slice(0, lastClose + 1)`. -/
def cutAfterLastClose (s2 : String) : String :=
  let lastClose := max (jsLastIndexOf '\x7d' s2.data) (jsLastIndexOf ']' s2.data)
  if lastClose ≠ -1 then String.mk (s2.data.take (lastClose.toNat + 1)) else s2

/-- `repairJsonString(str)` of `quizService.js`: trim, cut to the first
`{`/`[`, cut after the last `}`/`]`, strip trailing commas before closing
brackets, strip control characters. -/
def repairJsonString (str : String) : String :=
  if str = "" then str
  else
    let s3 := cutAfterLastClose (cutToFirstBracket (jsStrTrim str))
    String.mk (stripCtrlL (stripTrailingCommasL s3.data))

/-- The JS `||` chain `findJsonCodeBlock(raw) || findBalanced(raw) ||
repairJsonString(raw)` (`null` and `""` are falsy). -/
def firstTruthyString : List (Option String) → String → String
  | [], dflt => dflt
  | some s :: rest, dflt => if s ≠ "" then s else firstTruthyString rest dflt
  | none :: rest, dflt => firstTruthyString rest dflt

/-- `tryParseAIResponse(raw)`: extract, parse, on failure parse the repaired
string, on failure `[]`. -/
def tryParseAIResponse (raw : String) : Json :=
  let jsonString := firstTruthyString [findJsonCodeBlock raw, findBalanced raw]
    (repairJsonString raw)
  match jsonParse jsonString with
  | some v => v
  | none =>
    match jsonParse (repairJsonString jsonString) with
    | some v => v
    | none => .arr []

/-! ## `api/services/quizService.js` — validation -/

/-- One conjunct of `validateQuestionsArray`'s element check. -/
def validQuestion (q : Json) : Bool :=
  jsTruthy q && isObjTypeof q &&
  jsTruthyOpt (getField q "question") &&
  (match getField q "options" with
   | some (.arr os) => decide (os.length = 4)
   | _ => false) &&
  (match getField q "hint" with
   | some (.str _) => true
   | _ => false) &&
  (match getField q "explanation" with
   | some (.str _) => true
   | _ => false) &&
  (match getField q "correct" with
   | some (.num v) => decide (1 ≤ v) && decide (v ≤ 4)
   | _ => false)

/-- `validateQuestionsArray(arr)`. -/
def validateQuestionsArray : Json → Bool
  | .arr qs => qs.all validQuestion
  | _ => false

/-- `(o || "")` followed by `.trim()`: a truthy non-string has no `trim`
method, so JS throws (`none`). -/
def jsStrOfOr (o : Json) : Option String :=
  if jsTruthy o then
    match o with
    | .str s => some s
    | _ => none
  else some ""

/-- `options.map(o => (o || "").trim().toLowerCase())` evaluates left to
right and propagates the first throw. -/
def mapJsStr : List Json → Option (List String)
  | [] => some []
  | o :: os =>
    match jsStrOfOr o with
    | none => none
    | some s =>
      match mapJsStr os with
      | none => none
      | some ss => some (s :: ss)

/-- The element check of `validateQuestionsArrayStrict`; `Except.error ()`
models a thrown `TypeError`.  The `||` chain evaluates left to right, so the
`Set`-size test runs only when the earlier checks passed. -/
def strictCheckQ (q : Json) : Except Unit Bool :=
  if !jsTruthy q then .ok false
  else if !isObjTypeof q then .ok false
  else if !jsTruthyOpt (getField q "question") then .ok false
  else
    match getField q "options" with
    | some (.arr os) =>
      if os.length ≠ 4 then .ok false
      else
        match mapJsStr os with
        | none => .error ()
        | some ss =>
          let keys := ss.map fun s => jsToLowerCase (jsStrTrim s)
          if (dedupFirst keys).length ≠ 4 then .ok false
          else if !(match getField q "hint" with
                    | some (.str _) => true
                    | _ => false) then .ok false
          else if !(match getField q "explanation" with
                    | some (.str _) => true
                    | _ => false) then .ok false
          else
            match getField q "correct" with
            | some (.num v) =>
              if decide (1 ≤ v) && decide (v ≤ 4) then .ok true else .ok false
            | _ => .ok false
    | _ => .ok false

def strictLoop : List Json → Except Unit Bool
  | [] => .ok true
  | q :: rest =>
    match strictCheckQ q with
    | .error () => .error ()
    | .ok false => .ok false
    | .ok true => strictLoop rest

/-- `validateQuestionsArrayStrict(arr)` (second pipeline variant in
`quizService.js`). -/
def validateQuestionsArrayStrict : Json → Except Unit Bool
  | .arr qs => strictLoop qs
  | _ => .ok false

/-! ## `api/services/quizService.js` — local fallback generator -/

/-- `text.replace(/\s+/g, " ")`: every maximal whitespace run becomes one
space.  `inRun` records that the current run's space has been emitted. -/
def collapseWsGo : Bool → List Char → List Char
  | _, [] => []
  | inRun, c :: rest =>
    if jsWs c then
      if inRun then collapseWsGo true rest
      else ' ' :: collapseWsGo true rest
    else c :: collapseWsGo false rest

def collapseWsRuns (l : List Char) : List Char := collapseWsGo false l

def isSentEnd (c : Char) : Bool := c = '.' || c = '?' || c = '!'

/-- `text.split(/[.?!]\s+/)`: a sentence-ending punctuation character
followed by at least one whitespace character separates segments; the greedy
`\s+` consumes the whole whitespace run (`skip` records that the scanner is
inside that run). -/
def splitSentGo : Bool → List Char → List (List Char)
  | _, [] => [[]]
  | skip, c :: rest =>
    if skip && jsWs c then splitSentGo true rest
    else if isSentEnd c && (match rest with
                            | r :: _ => jsWs r
                            | [] => false) then
      [] :: splitSentGo true rest
    else
      match splitSentGo false rest with
      | s :: ss => (c :: s) :: ss
      | [] => [[c]]

def splitSentences (l : List Char) : List (List Char) := splitSentGo false l

/-- The sentence list of `localGenerator`: collapse whitespace, split into
sentences, trim, keep those longer than 30 characters. -/
def sentencesOf (text : String) : List String :=
  (((splitSentences (collapseWsRuns text.data)).map
      fun l => jsStrTrim (String.mk l)).filter
    fun s => decide (30 < s.length))

/-- `/[A-Za-z]/.test(w)`. -/
def hasLetter (l : List Char) : Bool :=
  l.any fun c => ('a' ≤ c && c ≤ 'z') || ('A' ≤ c && c ≤ 'Z')

/-- `s.split(/\s+/).filter(w => /[A-Za-z]/.test(w))`. -/
def wordsOf (s : String) : List String :=
  ((splitWsRuns s.data).map String.mk).filter fun w => hasLetter w.data

/-- `words.sort((a, b) => b.length - a.length)[0]`: the sort is stable
(ES2019), so the head is the first word of maximal length. -/
def firstLongest : List String → Option String
  | [] => none
  | w :: rest =>
    match firstLongest rest with
    | none => some w
    | some best => if w.length < best.length then some best else some w

def correctWordOf (s : String) : String := (firstLongest (wordsOf s)).getD "Answer"

/-- `word.replace(/[^A-Za-z0-9-]/g, "")`. -/
def stripNonWordKeepHyphen (w : String) : String :=
  String.mk (w.data.filter fun c =>
    ('a' ≤ c && c ≤ 'z') || ('A' ≤ c && c ≤ 'Z') || isDigitCh c || c = '-')

/-- `s.replace(pat, rep)` for a plain-string pattern: first occurrence only
(an empty pattern matches at position 0). -/
def replaceFirstSub (pat rep : List Char) : List Char → List Char
  | [] => match pat with
          | [] => rep
          | _ => []
  | c :: rest =>
    match prefixRest pat (c :: rest) with
    | some r => rep ++ r
    | none => c :: replaceFirstSub pat rep rest

def jsReplaceFirst (s pat rep : String) : String :=
  String.mk (replaceFirstSub pat.data rep.data s.data)

/-- `Array.indexOf`. -/
def jsIndexOfStr (x : String) (l : List String) : Int :=
  match l.findIdx? (· = x) with
  | some i => (i : Int)
  | none => -1

/-- The `while (opts.size < 4) opts.add(random())` loop over a JS `Set`
seeded with `[correct]`: insertion order is kept, duplicates are ignored,
the loop stops at size 4.  The random tokens drawn (each a value of
`Math.random().toString(36).substring(2, 8)`) are supplied as `entropy`;
a run that terminates corresponds to an entropy list reaching size 4. -/
def addRandomOptions : List String → List String → List String
  | opts, [] => opts
  | opts, e :: es =>
    if 4 ≤ opts.length then opts
    else addRandomOptions (if opts.contains e then opts else opts ++ [e]) es

def buildOptions (correct : String) (entropy : List String) : List String :=
  addRandomOptions [correct] entropy

/-- One question of `localGenerator` (sentence `i`). -/
def localQuestionAt (sentences : List String) (i : Nat) (entropy : List String) : Json :=
  let s := (sentences.get? i).getD ""
  let correctWord := correctWordOf s
  let correct := stripNonWordKeepHyphen correctWord
  let questionText := jsReplaceFirst s correctWord "_____"
  let options := buildOptions correct entropy
  let correctIndex := jsIndexOfStr correct options
  Json.obj
    [("id", .str (toString (i + 1))),
     ("question", .str questionText),
     ("options", .arr (options.map .str)),
     ("hint", .str "Focus on the missing keyword in the sentence."),
     ("correct", .num (((if 0 ≤ correctIndex then correctIndex else 0) + 1 : Int) : Rat)),
     ("explanation", .str ("The missing word '" ++ correct ++ "' fits best in the context."))]

/-- `localGenerator(text, numQuestions)`; `entropy i` is the random-token
stream consumed by question `i`'s option loop. -/
def localGenerator (text : String) (numQuestions : Nat) (entropy : Nat → List String) :
    List Json :=
  let sentences := sentencesOf text
  (List.range (min numQuestions sentences.length)).map fun i =>
    localQuestionAt sentences i (entropy i)

/-! ## `api/services/quizService.js` — prompts and the main pipeline -/

def basePrompt (text : String) (numQuestions : Nat) : String :=
  "\nYou are an advanced quiz generation system.\nGenerate exactly " ++
  toString numQuestions ++
  " multiple-choice questions from the provided text.\nEach question must test understanding, not memorization.\n\nReturn ONLY valid JSON (no markdown, no commentary). \nEach item must include:\n- \"id\"\n- \"question\"\n- \"options\": exactly 4 choices\n- \"hint\": short clue\n- \"correct\": the correct option number (1–4)\n- \"explanation\": short explanation of why the correct option is right.\n\nExample JSON:\n[\n  \x7b\n    \"id\": \"1\",\n    \"question\": \"What is linear regression used for?\",\n    \"options\": [\n      \"Predicting continuous outcomes\",\n      \"Predicting categorical outcomes\",\n      \"Data encryption\",\n      \"Sorting data\"\n    ],\n    \"hint\": \"Think about the type of variable predicted.\",\n    \"correct\": 1,\n    \"explanation\": \"Linear regression predicts continuous outcomes using a linear relationship.\"\n  \x7d\n]\n\nText:\n" ++
  strTake 4000 text ++ "\n"

def strictPrompt (text : String) (numQuestions : Nat) : String :=
  "\nYou must return STRICT JSON output only.\nIf the text includes multiple topics, ensure each topic is represented with at least one question.\nEach item must include: question, options (4), hint, correct (1–4), and explanation.\nNo markdown, no commentary, no prose — only the JSON array itself.\n" ++
  basePrompt text numQuestions ++ "\n"

structure QuizResult where
  questions : List Json
  reason : String

def jsonElems : Json → List Json
  | .arr xs => xs
  | _ => []

/-- `generateQuizFromText(text, numQuestions)` (first pipeline variant),
instrumented with the list of prompts sent to the oracle.  The oracle
(`openai.chat.completions.create`) is a function from the prompt to
`some raw` (a reply) or `none` (a thrown network/auth error); a throw in
either call lands in the single `catch`, which falls back to
`localGenerator`. -/
def generateQuizRun (text : String) (numQuestions : Nat)
    (oracle : String → Option String) (entropy : Nat → List String) :
    QuizResult × List String :=
  if (jsStrTrim text).length < 100 then ({ questions := [], reason := "Text too short" }, [])
  else
    let pb := basePrompt text numQuestions
    match oracle pb with
    | none =>
      ({ questions := localGenerator text numQuestions entropy,
         reason := "OpenRouter error" }, [pb])
    | some rawPrimary =>
      let parsed := tryParseAIResponse rawPrimary
      if validateQuestionsArray parsed then
        ({ questions := jsonElems parsed, reason := "AI primary success" }, [pb])
      else
        let ps := strictPrompt text numQuestions
        match oracle ps with
        | none =>
          ({ questions := localGenerator text numQuestions entropy,
             reason := "OpenRouter error" }, [pb, ps])
        | some rawRetry =>
          let parsed2 := tryParseAIResponse rawRetry
          if validateQuestionsArray parsed2 then
            ({ questions := jsonElems parsed2, reason := "AI retry success" }, [pb, ps])
          else
            ({ questions := localGenerator text numQuestions entropy,
               reason := "AI invalid, local fallback" }, [pb, ps])

def generateQuizFromText (text : String) (numQuestions : Nat)
    (oracle : String → Option String) (entropy : Nat → List String) : QuizResult :=
  (generateQuizRun text numQuestions oracle entropy).1

/-! ## `api/services/geminiService.js` — inline fallback generator -/

/-- `s.replace(/(\w{6,})/, "_____")`: the first run of at least six word
characters (taken maximally) becomes the blank. -/
def replaceFirstWordRun6 : List Char → List Char
  | [] => []
  | c :: rest =>
    if 6 ≤ ((c :: rest).takeWhile wordChar).length then
      "_____".data ++ (c :: rest).dropWhile wordChar
    else c :: replaceFirstWordRun6 rest

/-- The fallback generator inside `geminiService.generateQuizFromText`
(lines 40–47): fixed generic options, `answer: 0`. -/
def geminiFallbackQuestions (text : String) : List Json :=
  let sentences := ((splitSentences text.data).map String.mk).filter
    fun s => decide (20 < s.length)
  (sentences.take 5).enum.map fun is =>
    Json.obj
      [("id", .str (toString (is.1 + 1))),
       ("question", .str (String.mk (replaceFirstWordRun6 is.2.data))),
       ("options", .arr [.str "Option A", .str "Option B", .str "Option C", .str "Option D"]),
       ("answer", .num 0)]

/-! ## Definitions used by the statements of the theorems -/

/-- The repair pass as the specification describes it, without the
single-quote step: trim, cut to the substring between the first opening and
the last closing bracket (a missing delimiter leaves that side alone), strip
trailing commas before closing brackets, strip control characters.  The
bracket cuts are implemented by `dropWhile`/`reverse`, independently of the
index arithmetic of `repairJsonString`. -/
def specRepairCore (s : String) : String :=
  if s = "" then s
  else
    let t := (jsStrTrim s).data
    let t1 := if t.any isOpenBr then t.dropWhile (fun c => !isOpenBr c) else t
    let t2 := if t1.any isCloseBr then
                (t1.reverse.dropWhile (fun c => !isCloseBr c)).reverse
              else t1
    String.mk (stripCtrlL (stripTrailingCommasL t2))

/-- The single-quote normalization the specification describes: each
`'…'` span (no inner quote) becomes `"…"`; an unmatched quote is left
alone.  `pending = some buf` records an open quote with span `buf` so far. -/
def nsqGo : Option (List Char) → List Char → List Char
  | none, [] => []
  | some buf, [] => '\x27' :: buf
  | none, c :: rest =>
    if c = '\x27' then nsqGo (some []) rest
    else c :: nsqGo none rest
  | some buf, c :: rest =>
    if c = '\x27' then ('"' :: (buf ++ ['"'])) ++ nsqGo none rest
    else nsqGo (some (buf ++ [c])) rest

def normalizeSingleQuotes (l : List Char) : List Char := nsqGo none l

/-- The full repair pass as the specification claims it, single-quote
normalization included. -/
def specRepairDescribed (s : String) : String :=
  String.mk (normalizeSingleQuotes (specRepairCore s).data)

/-- The non-blank lines of a content string, each trimmed: the view in which
section contents are compared with the body lines. -/
def contentLines (s : String) : List String :=
  ((s.data.splitOn '\n').map fun l => String.mk (trimL l)).filter (· ≠ "")

/-- `contentLines` on raw character lists. -/
def clData (l : List Char) : List String :=
  ((l.splitOn '\n').map fun seg => String.mk (trimL seg)).filter (· ≠ "")

/-- The body lines strictly after the first detected heading, with heading
lines removed. -/
def headingFreeLinesAfter (pages : List PageObj) : List String :=
  let L := pageLinesOf pages
  match candidatesOf L with
  | c :: _ => ((L.drop (c.index + 1)).map (·.2)).filter fun l => (detectHeading l).isNone
  | [] => []

/-- Sentence `i` of `localGenerator`'s sentence list (`""` out of range). -/
def sentenceAt (text : String) (i : Nat) : String :=
  ((sentencesOf text).get? i).getD ""

/-- The word `localGenerator` blanks out in sentence `i`. -/
def localWordAt (text : String) (i : Nat) : String :=
  correctWordOf (sentenceAt text i)

/-- That word after `replace(/[^A-Za-z0-9-]/g, "")`: option 0 of question `i`. -/
def localCorrectAt (text : String) (i : Nat) : String :=
  stripNonWordKeepHyphen (localWordAt text i)

/-- Case-insensitive pairwise distinctness of a list of JSON values that are
all strings (after JS `(o || "").trim().toLowerCase()`). -/
def optionsDistinctCI (os : List Json) : Prop :=
  ∃ ss : List String, mapJsStr os = some ss ∧
    (ss.map fun s => jsToLowerCase (jsStrTrim s)).Nodup

/-! ## Concrete inputs used by counterexamples and witnesses -/

def acmeFooter : String := "Acme Press — Confidential"

/-- Ten pages; only pages 1 and 2 end with the Acme footer line. -/
def acmeDoc1 : List String :=
  ["opening page body text about botany and gardens\n" ++ acmeFooter,
   "second page body text about trees and leaves\n" ++ acmeFooter,
   "third page body text about roots and stems",
   "fourth page body text about flowers and seeds",
   "fifth page body text about soil and water",
   "sixth page body text about sunlight and growth",
   "seventh page body text about insects and pollen",
   "eighth page body text about fruit and harvest",
   "ninth page body text about seasons and climate",
   "tenth page body text about forests and fields"]

/-- Ten pages; pages 1–5 end with the Acme footer line (at least half of the
eight sampled pages). -/
def acmeDoc2 : List String :=
  ["opening page body text about botany and gardens\n" ++ acmeFooter,
   "second page body text about trees and leaves\n" ++ acmeFooter,
   "third page body text about roots and stems\n" ++ acmeFooter,
   "fourth page body text about flowers and seeds\n" ++ acmeFooter,
   "fifth page body text about soil and water\n" ++ acmeFooter,
   "sixth page body text about sunlight and growth",
   "seventh page body text about insects and pollen",
   "eighth page body text about fruit and harvest",
   "ninth page body text about seasons and climate",
   "tenth page body text about forests and fields"]

/-- A body line longer than 120 characters that no heading heuristic
matches. -/
def longBodyLine : String :=
  "this is a deliberately long stretch of ordinary lowercase body text " ++
  "that keeps going for quite a while so that its total character count " ++
  "comfortably exceeds the minimum section threshold"

/-- A document whose first section is large and whose final section is
small. -/
def secDocB : List PageObj := [⟨1, "INTRODUCTION\n" ++ longBodyLine ++ "\nCONCLUSION\nshort"⟩]

/-- The emitted first section of `secDocB`. -/
def secDocBFirst : SecOut :=
  { title := "INTRODUCTION", level := 1, content := longBodyLine,
    startPage := 1, endPage := 1, images := [] }

/-- A document with a body line BEFORE the first detected heading. -/
def secDocC : List PageObj :=
  [⟨1, "some ordinary body line before the heading appears here\nINTRODUCTION\n"
        ++ longBodyLine⟩]

/-- A 120-character input text whose trimmed length is above the
minimum-content threshold. -/
def t120 : String := String.mk (List.replicate 120 'a')

def mitoText : String :=
  "The mitochondria is the powerhouse of the cell and makes energy"

def mitoEntropy : Nat → List String := fun _ => ["aa", "bb", "cc"]

/-- A two-sentence mitochondria text whose trimmed length exceeds the
100-character minimum, so the pipeline runs past the length gate. -/
def mito2Text : String :=
  "The mitochondria is the powerhouse of the cell and makes energy for every living organism. It also regulates cellular metabolism and growth signaling pathways."

/-- Question 0 of the local fallback on `mito2Text`. -/
def mito2Q0 : Json :=
  localQuestionAt (sentencesOf mito2Text) 0 (mitoEntropy 0)

/-- The single question `localGenerator` produces from `mitoText` with
`mitoEntropy`. -/
def mitoQ0 : Json :=
  Json.obj
    [("id", .str "1"),
     ("question", .str "The _____ is the powerhouse of the cell and makes energy"),
     ("options", .arr [.str "mitochondria", .str "aa", .str "bb", .str "cc"]),
     ("hint", .str "Focus on the missing keyword in the sentence."),
     ("correct", .num 1),
     ("explanation", .str "The missing word 'mitochondria' fits best in the context.")]

/-- An oracle reply whose only question has four identical options; it
passes `validateQuestionsArray`. -/
def dupResp : String :=
  "[\x7b\"question\":\"Q\",\"options\":[\"A\",\"A\",\"A\",\"A\"],\"hint\":\"h\",\"explanation\":\"e\",\"correct\":1\x7d]"

def dupQ : Json :=
  Json.obj
    [("question", .str "Q"),
     ("options", .arr [.str "A", .str "A", .str "A", .str "A"]),
     ("hint", .str "h"),
     ("explanation", .str "e"),
     ("correct", .num 1)]

def photoText : String :=
  "Photosynthesis is how plants convert light into energy here."

/-! # Theorems -/

/-- **C7, counterexample.**  The claim: with no form-feed markers and a
reported page count `n ≥ 1`, the extractor produces `n` approximately
equal slices.  On `"Hello world"` with `n = 3` the code returns a single
page instead: the approximate split only runs when every chunk trims to
empty. -/
theorem c7_counterexample :
    ('\x0c' ∉ "Hello world".data) ∧ (1 ≤ 3) ∧
    extractPagesText "Hello world" 3 = ["Hello world"] ∧
    (extractPagesText "Hello world" 3).length ≠ 3 :=
  ⟨by decide, by decide, rfl, by decide⟩

/-- **C6, counterexample.**  The claim: after the merge pass no emitted
section has empty content.  A document that ends with a heading line emits a
final section with empty content. -/
theorem c6_counterexample :
    (extractSectionsFromPagesWithAssets [⟨1, "INTRODUCTION"⟩] 0 []).map (fun s => s.content)
      = [""] ∧
    (extractSectionsFromPagesWithAssets [⟨1, "INTRODUCTION"⟩] 0 []).length = 1 :=
  ⟨rfl, rfl⟩

/-- **C8, counterexample.**  The claim describes the repair pass as also
normalizing single-quoted keys/values to double-quoted form; the pipeline's
`repairJsonString` performs no such normalization. -/
theorem c8_counterexample :
    repairJsonString "\x7b'a':'b'\x7d" = "\x7b'a':'b'\x7d" ∧
    specRepairDescribed "\x7b'a':'b'\x7d" = "\x7b\"a\":\"b\"\x7d" ∧
    repairJsonString "\x7b'a':'b'\x7d" ≠ specRepairDescribed "\x7b'a':'b'\x7d" :=
  ⟨rfl, rfl, by decide⟩

/-- **C10, counterexample.**  The claim: in every question of the
dependency-free fallback generator, `options[0]` is the blanked-out word.
The `geminiService` fallback (one of the claim's sources) blanks
"Photosynthesis" but returns the fixed options `Option A` … `Option D`. -/
theorem c10_counterexample :
    ((geminiFallbackQuestions photoText).map fun q => getField q "question")
      = [some (.str "_____ is how plants convert light into energy here.")] ∧
    ((geminiFallbackQuestions photoText).map fun q => getField q "options")
      = [some (.arr [.str "Option A", .str "Option B", .str "Option C", .str "Option D"])] ∧
    ((geminiFallbackQuestions photoText).map fun q => getField q "answer")
      = [some (.num 0)] ∧
    "Option A" ≠ "Photosynthesis" :=
  ⟨rfl, rfl, rfl, by decide⟩

/-- **C1, counterexample.**  The claim: with input of trimmed length ≥ 100,
the result has at least one question, an empty list appearing only with the
too-short reason.  An oracle reply `"[]"` parses to the empty array, which
`validateQuestionsArray` accepts, so the pipeline returns no questions with
reason `"AI primary success"`. -/
theorem c1_counterexample :
    100 ≤ (jsStrTrim t120).length ∧
    (generateQuizFromText t120 5 (fun _ => some "[]") (fun _ => [])).questions = [] ∧
    (generateQuizFromText t120 5 (fun _ => some "[]") (fun _ => [])).reason
      = "AI primary success" ∧
    ("AI primary success" : String) ≠ "Text too short" :=
  ⟨by decide, rfl, rfl, by decide⟩

/-- **C3, counterexample.**  The claim: an oracle output that fails to parse
triggers one retry with the stricter prompt.  An unparseable reply is turned
into `[]` by `tryParseAIResponse`, which the validator accepts, so the run
makes exactly one oracle call and reports AI success — no retry. -/
theorem c3_counterexample :
    100 ≤ (jsStrTrim t120).length ∧
    jsonParse "garbage" = none ∧
    jsonParse (repairJsonString "garbage") = none ∧
    (generateQuizRun t120 5 (fun _ => some "garbage") (fun _ => [])).2 = [basePrompt t120 5] ∧
    (generateQuizRun t120 5 (fun _ => some "garbage") (fun _ => [])).1.reason
      = "AI primary success" :=
  ⟨by decide, rfl, rfl, rfl, rfl⟩

/-- **C4, counterexample.**  The claim: in a 10-page document whose pages 1
and 2 end with "Acme Press — Confidential", the Noise Filter strips the line
everywhere.  The line recurs on only 2 of the 8 sampled pages, below the
promotion threshold `⌊8·0.5⌋ = 4` (the rule the claim itself quotes), so it
is not promoted (the footer list is empty) and still appears on cleaned
page 1. -/
theorem c4_counterexample :
    headerThresholdOf (min acmeDoc1.length MAX_HEADER_FOOTER_SAMPLE_PAGES) = 4 ∧
    isLikelyHeaderFooter acmeFooter = true ∧
    (removeRepeatingHeadersFooters acmeDoc1).headerFooterInfo.footers = [] ∧
    (jsLines (((removeRepeatingHeadersFooters acmeDoc1).pagesWithoutHeaderFooter.get? 0).getD
        "")).contains acmeFooter = true :=
  ⟨rfl, rfl, rfl, rfl⟩

/-- **C4, amended.**  With the footer line on pages 1–5 — at least half of
the 8 sampled pages, as the promotion rule requires — it is promoted, it is
stripped from every page on which it occurs, and no emitted section's
content contains it. -/
theorem c4_amended :
    (removeRepeatingHeadersFooters acmeDoc2).headerFooterInfo.footers = [acmeFooter] ∧
    ((removeRepeatingHeadersFooters acmeDoc2).pagesWithoutHeaderFooter).all
      (fun p => !(jsLines p).contains acmeFooter) = true ∧
    (extractSectionsFromPagesWithAssets
        (((removeRepeatingHeadersFooters acmeDoc2).pagesWithoutHeaderFooter).enum.map
          fun ip => ⟨ip.1 + 1, ip.2⟩) 0 []).all
      (fun s => !(contentLines s.content).contains acmeFooter) = true :=
  ⟨rfl, rfl, rfl⟩

/-- **C2, counterexample.**  The claim: every returned question has four
pairwise case-insensitively distinct options.  `validateQuestionsArray`
never checks distinctness, so an oracle reply with four identical options is
returned as an AI success. -/
theorem c2_counterexample :
    (generateQuizFromText t120 5 (fun _ => some dupResp) (fun _ => [])).questions = [dupQ] ∧
    (generateQuizFromText t120 5 (fun _ => some dupResp) (fun _ => [])).reason
      = "AI primary success" ∧
    getField dupQ "options" = some (.arr [.str "A", .str "A", .str "A", .str "A"]) ∧
    ¬ optionsDistinctCI [.str "A", .str "A", .str "A", .str "A"] := by
  refine ⟨rfl, rfl, rfl, ?_⟩
  rintro ⟨ss, h1, h2⟩
  have h0 : mapJsStr [Json.str "A", .str "A", .str "A", .str "A"]
      = some ["A", "A", "A", "A"] := rfl
  rw [h0] at h1
  cases Option.some.inj h1
  revert h2
  decide

/-- **C7, amended.**  With no form-feed marker in the decoder text, the
extractor returns the whole trimmed text as a single page whenever that trim
is nonempty; the approximate equal split across the reported page count
(which then indeed yields `numpages` pages) runs only when the text trims to
empty. -/
theorem c7_amended (text : String) (numpages : Nat) (hf : '\x0c' ∉ text.data) :
    (jsStrTrim (String.mk (replaceCRLF text.data)) ≠ "" →
      extractPagesText text numpages = [jsStrTrim (String.mk (replaceCRLF text.data))]) ∧
    (jsStrTrim (String.mk (replaceCRLF text.data)) = "" → 1 ≤ numpages →
      extractPagesText text numpages = splitTextByApproxPages text numpages ∧
      (splitTextByApproxPages text numpages).length = numpages) := by
  have hsplit : text.data.splitOn '\x0c' = [text.data] := by
    show text.data.splitOnP (· == '\x0c') = [text.data]
    refine List.splitOnP_eq_single _ _ fun x hx => ?_
    simp only [beq_iff_eq]
    intro heq
    exact hf (heq ▸ hx)
  have hraw : strSplitChar '\x0c' text = [text] := by
    simp [strSplitChar, hsplit]
  have hlen : (splitTextByApproxPages text numpages).length = numpages := by
    unfold splitTextByApproxPages
    simp
  have key : extractPagesText text numpages =
      if jsStrTrim (String.mk (replaceCRLF text.data)) = "" then
        (if 0 < numpages then splitTextByApproxPages text numpages else [jsStrTrim text])
      else [jsStrTrim (String.mk (replaceCRLF text.data))] := by
    unfold extractPagesText
    rw [hraw]
    by_cases h : jsStrTrim (String.mk (replaceCRLF text.data)) = ""
    · simp [h, List.filter_cons, List.isEmpty]
    · simp [h, List.filter_cons, List.isEmpty]
  constructor
  · intro hne
    rw [key, if_neg hne]
  · intro he hn
    rw [key, if_pos he, if_pos (Nat.lt_of_lt_of_le Nat.zero_lt_one hn)]
    exact ⟨rfl, hlen⟩

/-- **C7, witness** for the amended theorem at `"Hello world"`, `n = 3`. -/
theorem c7_witness :
    extractPagesText "Hello world" 3
      = [jsStrTrim (String.mk (replaceCRLF "Hello world".data))] :=
  (c7_amended "Hello world" 3 (by decide)).1 (by decide)

/-! ### Helper lemmas on the local generator -/

theorem addRandomOptions_head (e : List String) :
    ∀ (x : String) (opts : List String), ∃ r, addRandomOptions (x :: opts) e = x :: r := by
  induction e with
  | nil => exact fun x opts => ⟨opts, rfl⟩
  | cons e0 es ih =>
    intro x opts
    show ∃ r, (if 4 ≤ (x :: opts).length then x :: opts
          else addRandomOptions (if (x :: opts).contains e0 then x :: opts
                                 else (x :: opts) ++ [e0]) es) = x :: r
    by_cases h4 : 4 ≤ (x :: opts).length
    · rw [if_pos h4]
      exact ⟨opts, rfl⟩
    · rw [if_neg h4]
      by_cases hc : (x :: opts).contains e0 = true
      · rw [if_pos hc]
        exact ih x opts
      · rw [if_neg hc]
        exact ih x (opts ++ [e0])

/-- `buildOptions` always starts with the correct word. -/
theorem buildOptions_head (c : String) (e : List String) :
    ∃ r, buildOptions c e = c :: r :=
  addRandomOptions_head e c []

/-- `indexOf` finds the correct word at position 0. -/
theorem jsIndexOf_buildOptions (c : String) (e : List String) :
    jsIndexOfStr c (buildOptions c e) = 0 := by
  obtain ⟨r, hr⟩ := buildOptions_head c e
  rw [hr]
  simp [jsIndexOfStr, List.findIdx?_cons]

/-- The `correct` field of every `localGenerator` question is the number 1. -/
theorem localQuestionAt_correct (S : List String) (i : Nat) (e : List String) :
    getField (localQuestionAt S i e) "correct" = some (.num 1) := by
  have h0 : getField (localQuestionAt S i e) "correct"
      = some (.num (((if 0 ≤ jsIndexOfStr (stripNonWordKeepHyphen (correctWordOf ((S.get? i).getD "")))
          (buildOptions (stripNonWordKeepHyphen (correctWordOf ((S.get? i).getD "")))
            e) then
          jsIndexOfStr (stripNonWordKeepHyphen (correctWordOf ((S.get? i).getD "")))
            (buildOptions (stripNonWordKeepHyphen (correctWordOf ((S.get? i).getD ""))) e)
        else 0) + 1 : Int) : Rat)) := rfl
  rw [h0, jsIndexOf_buildOptions]
  norm_num

/-- **C10, amended.**  In `quizService.js`'s `localGenerator` the claim
holds: every question's `correct` field is 1, `options[0]` is the blanked
word with every character other than letters, digits and hyphens stripped,
and the question stem is the sentence with that word's first occurrence
blanked (the `geminiService` fallback instead answers with fixed generic
options, see the counterexample). -/
theorem c10_amended (text : String) (n : Nat) (entropy : Nat → List String)
    (i : Nat) (q : Json)
    (h : (localGenerator text n entropy).get? i = some q) :
    getField q "correct" = some (.num 1) ∧
    (∃ rest, getField q "options"
       = some (.arr (.str (localCorrectAt text i) :: rest))) ∧
    getField q "question"
      = some (.str (jsReplaceFirst (sentenceAt text i) (localWordAt text i) "_____")) := by
  have hq : q = localQuestionAt (sentencesOf text) i (entropy i) := by
    unfold localGenerator at h
    rw [List.get?_map] at h
    rcases hi : (List.range (min n (sentencesOf text).length)).get? i with _ | j
    · rw [hi] at h
      exact absurd h (by simp)
    · rw [hi] at h
      have hj : j = i := by
        have := List.get?_eq_some.mp hi
        obtain ⟨hlt, hget⟩ := this
        rw [List.get_range] at hget
        exact hget.symm
      subst hj
      simpa using h.symm
  subst hq
  refine ⟨localQuestionAt_correct _ _ _, ?_, ?_⟩
  · obtain ⟨r, hr⟩ := buildOptions_head (localCorrectAt text i) (entropy i)
    refine ⟨r.map .str, ?_⟩
    have h0 : getField (localQuestionAt (sentencesOf text) i (entropy i)) "options"
        = some (.arr ((buildOptions (localCorrectAt text i) (entropy i)).map .str)) := rfl
    rw [h0, hr]
    rfl
  · rfl

/-- **C10, witness** for the amended theorem at `mitoText`, question 0. -/
theorem c10_witness :
    getField mitoQ0 "correct" = some (.num 1) ∧
    (∃ rest, getField mitoQ0 "options"
       = some (.arr (.str (localCorrectAt mitoText 0) :: rest))) ∧
    getField mitoQ0 "question"
      = some (.str (jsReplaceFirst (sentenceAt mitoText 0) (localWordAt mitoText 0) "_____")) :=
  c10_amended mitoText 5 mitoEntropy 0 mitoQ0 rfl

/-! ### The case analysis of the primary quiz pipeline -/

/-- Full characterization of `generateQuizRun` above the length threshold;
shared by the claims about the pipeline. -/
theorem quizRunSpec (text : String) (n : Nat) (oracle : String → Option String)
    (entropy : Nat → List String) (h : ¬ (jsStrTrim text).length < 100) :
    (oracle (basePrompt text n) = none →
      generateQuizRun text n oracle entropy
        = ({ questions := localGenerator text n entropy, reason := "OpenRouter error" },
           [basePrompt text n])) ∧
    (∀ raw, oracle (basePrompt text n) = some raw →
      validateQuestionsArray (tryParseAIResponse raw) = true →
      generateQuizRun text n oracle entropy
        = ({ questions := jsonElems (tryParseAIResponse raw), reason := "AI primary success" },
           [basePrompt text n])) ∧
    (∀ raw, oracle (basePrompt text n) = some raw →
      validateQuestionsArray (tryParseAIResponse raw) = false →
      oracle (strictPrompt text n) = none →
      generateQuizRun text n oracle entropy
        = ({ questions := localGenerator text n entropy, reason := "OpenRouter error" },
           [basePrompt text n, strictPrompt text n])) ∧
    (∀ raw raw2, oracle (basePrompt text n) = some raw →
      validateQuestionsArray (tryParseAIResponse raw) = false →
      oracle (strictPrompt text n) = some raw2 →
      validateQuestionsArray (tryParseAIResponse raw2) = true →
      generateQuizRun text n oracle entropy
        = ({ questions := jsonElems (tryParseAIResponse raw2), reason := "AI retry success" },
           [basePrompt text n, strictPrompt text n])) ∧
    (∀ raw raw2, oracle (basePrompt text n) = some raw →
      validateQuestionsArray (tryParseAIResponse raw) = false →
      oracle (strictPrompt text n) = some raw2 →
      validateQuestionsArray (tryParseAIResponse raw2) = false →
      generateQuizRun text n oracle entropy
        = ({ questions := localGenerator text n entropy, reason := "AI invalid, local fallback" },
           [basePrompt text n, strictPrompt text n])) := by
  unfold generateQuizRun
  rw [if_neg h]
  dsimp only
  refine ⟨?_, ?_, ?_, ?_, ?_⟩
  · intro ho
    rw [ho]
  · intro raw ho hv
    rw [ho]
    simp only [hv, if_true]
  · intro raw ho hv hs
    rw [ho]
    simp only [hv, Bool.false_eq_true, if_false]
    rw [hs]
  · intro raw raw2 ho hv hs hv2
    rw [ho]
    simp only [hv, Bool.false_eq_true, if_false]
    rw [hs]
    simp only [hv2, if_true]
  · intro raw raw2 ho hv hs hv2
    rw [ho]
    simp only [hv, Bool.false_eq_true, if_false]
    rw [hs]
    simp only [hv2, Bool.false_eq_true, if_false]

/-- The too-short branch of `generateQuizRun`. -/
theorem quizRunShort (text : String) (n : Nat) (oracle : String → Option String)
    (entropy : Nat → List String) (h : (jsStrTrim text).length < 100) :
    generateQuizRun text n oracle entropy
      = ({ questions := [], reason := "Text too short" }, []) := by
  unfold generateQuizRun
  rw [if_pos h]

/-- **C3, amended.**  The per-text-unit state machine branches on
`validateQuestionsArray(tryParseAIResponse(raw))`, not on parse success: an
unparseable reply yields `[]`, which the validator accepts, so parse failure
ends the run as an (empty) AI success with no retry (see the counterexample).
The retry — with the stricter prompt, which differs from the base prompt —
happens exactly when the parsed value fails validation; a thrown oracle call
(either call) falls directly to the local fallback generator with no further
oracle calls. -/
theorem c3_amended (text : String) (n : Nat) (oracle : String → Option String)
    (entropy : Nat → List String) (h : 100 ≤ (jsStrTrim text).length) :
    strictPrompt text n ≠ basePrompt text n ∧
    ((oracle (basePrompt text n) = none →
      generateQuizRun text n oracle entropy
        = ({ questions := localGenerator text n entropy, reason := "OpenRouter error" },
           [basePrompt text n])) ∧
    (∀ raw, oracle (basePrompt text n) = some raw →
      validateQuestionsArray (tryParseAIResponse raw) = true →
      generateQuizRun text n oracle entropy
        = ({ questions := jsonElems (tryParseAIResponse raw), reason := "AI primary success" },
           [basePrompt text n])) ∧
    (∀ raw, oracle (basePrompt text n) = some raw →
      validateQuestionsArray (tryParseAIResponse raw) = false →
      oracle (strictPrompt text n) = none →
      generateQuizRun text n oracle entropy
        = ({ questions := localGenerator text n entropy, reason := "OpenRouter error" },
           [basePrompt text n, strictPrompt text n])) ∧
    (∀ raw raw2, oracle (basePrompt text n) = some raw →
      validateQuestionsArray (tryParseAIResponse raw) = false →
      oracle (strictPrompt text n) = some raw2 →
      validateQuestionsArray (tryParseAIResponse raw2) = true →
      generateQuizRun text n oracle entropy
        = ({ questions := jsonElems (tryParseAIResponse raw2), reason := "AI retry success" },
           [basePrompt text n, strictPrompt text n])) ∧
    (∀ raw raw2, oracle (basePrompt text n) = some raw →
      validateQuestionsArray (tryParseAIResponse raw) = false →
      oracle (strictPrompt text n) = some raw2 →
      validateQuestionsArray (tryParseAIResponse raw2) = false →
      generateQuizRun text n oracle entropy
        = ({ questions := localGenerator text n entropy, reason := "AI invalid, local fallback" },
           [basePrompt text n, strictPrompt text n]))) := by
  constructor
  · intro heq
    have hlen := congrArg String.length heq
    rw [strictPrompt] at hlen
    rw [String.length_append, String.length_append] at hlen
    have h1 : (0 : Nat) <
        ("\nYou must return STRICT JSON output only.\nIf the text includes multiple topics, ensure each topic is represented with at least one question.\nEach item must include: question, options (4), hint, correct (1–4), and explanation.\nNo markdown, no commentary, no prose — only the JSON array itself.\n" : String).length := by
      decide
    omega
  · exact quizRunSpec text n oracle entropy (by omega)

/-- **C3, witness** for the amended theorem: a thrown primary call at a
120-character input falls straight to the local fallback after one oracle
call. -/
theorem c3_witness :
    generateQuizRun t120 5 (fun _ => none) (fun _ => [])
      = ({ questions := localGenerator t120 5 (fun _ => []), reason := "OpenRouter error" },
         [basePrompt t120 5]) :=
  ((c3_amended t120 5 (fun _ => none) (fun _ => []) (by decide)).2).1 rfl

/-- **C1, amended.**  An empty questions list is not confined to the
too-short reason: it is returned exactly when (i) the input trims below 100
characters ("Text too short"), or (ii) an oracle reply was validated as an
empty array — which includes every unparseable reply — with an AI success
reason, or (iii) the run fell back to `localGenerator` and the text has no
sentence longer than 30 characters (fallback reasons).  Unvalidated output
does route to the retry/fallback rather than being returned with a success
reason, but parse failure is converted to a validated empty array first. -/
theorem c1_amended (text : String) (n : Nat) (oracle : String → Option String)
    (entropy : Nat → List String)
    (h : (generateQuizFromText text n oracle entropy).questions = []) :
    (generateQuizFromText text n oracle entropy).reason = "Text too short" ∨
    ((generateQuizFromText text n oracle entropy).reason = "AI primary success" ∧
      ∃ raw, oracle (basePrompt text n) = some raw ∧
        validateQuestionsArray (tryParseAIResponse raw) = true ∧
        jsonElems (tryParseAIResponse raw) = []) ∨
    ((generateQuizFromText text n oracle entropy).reason = "AI retry success" ∧
      ∃ raw2, oracle (strictPrompt text n) = some raw2 ∧
        validateQuestionsArray (tryParseAIResponse raw2) = true ∧
        jsonElems (tryParseAIResponse raw2) = []) ∨
    (((generateQuizFromText text n oracle entropy).reason = "OpenRouter error" ∨
      (generateQuizFromText text n oracle entropy).reason = "AI invalid, local fallback") ∧
      localGenerator text n entropy = []) := by
  by_cases hlen : (jsStrTrim text).length < 100
  · left
    show (generateQuizRun text n oracle entropy).1.reason = _
    rw [quizRunShort text n oracle entropy hlen]
  · have spec := quizRunSpec text n oracle entropy hlen
    rcases ho : oracle (basePrompt text n) with _ | raw
    · have hr := spec.1 ho
      right; right; right
      unfold generateQuizFromText at h ⊢
      rw [hr] at h ⊢
      exact ⟨Or.inl rfl, h⟩
    · cases hv : validateQuestionsArray (tryParseAIResponse raw) with
      | true =>
        have hr := spec.2.1 raw ho hv
        right; left
        unfold generateQuizFromText at h ⊢
        rw [hr] at h ⊢
        exact ⟨rfl, raw, rfl, hv, h⟩
      | false =>
        rcases hs : oracle (strictPrompt text n) with _ | raw2
        · have hr := spec.2.2.1 raw ho hv hs
          right; right; right
          unfold generateQuizFromText at h ⊢
          rw [hr] at h ⊢
          exact ⟨Or.inl rfl, h⟩
        · cases hv2 : validateQuestionsArray (tryParseAIResponse raw2) with
          | true =>
            have hr := spec.2.2.2.1 raw raw2 ho hv hs hv2
            right; right; left
            unfold generateQuizFromText at h ⊢
            rw [hr] at h ⊢
            exact ⟨rfl, raw2, rfl, hv2, h⟩
          | false =>
            have hr := spec.2.2.2.2 raw raw2 ho hv hs hv2
            right; right; right
            unfold generateQuizFromText at h ⊢
            rw [hr] at h ⊢
            exact ⟨Or.inr rfl, h⟩

/-- **C1, witness** for the amended theorem at the empty input. -/
theorem c1_witness :
    (generateQuizFromText "" 5 (fun _ => none) (fun _ => [])).reason = "Text too short" ∨
    ((generateQuizFromText "" 5 (fun _ => none) (fun _ => [])).reason = "AI primary success" ∧
      ∃ raw, (fun _ : String => (none : Option String)) (basePrompt "" 5) = some raw ∧
        validateQuestionsArray (tryParseAIResponse raw) = true ∧
        jsonElems (tryParseAIResponse raw) = []) ∨
    ((generateQuizFromText "" 5 (fun _ => none) (fun _ => [])).reason = "AI retry success" ∧
      ∃ raw2, (fun _ : String => (none : Option String)) (strictPrompt "" 5) = some raw2 ∧
        validateQuestionsArray (tryParseAIResponse raw2) = true ∧
        jsonElems (tryParseAIResponse raw2) = []) ∨
    (((generateQuizFromText "" 5 (fun _ => none) (fun _ => [])).reason = "OpenRouter error" ∨
      (generateQuizFromText "" 5 (fun _ => none) (fun _ => [])).reason
        = "AI invalid, local fallback") ∧
      localGenerator "" 5 (fun _ => []) = []) :=
  c1_amended "" 5 (fun _ => none) (fun _ => []) rfl

/-! ### Helper lemmas on `dedupFirst` and option adequacy -/

theorem dedupFirst_nodup : ∀ l : List String, (dedupFirst l).Nodup
  | [] => by simp [dedupFirst]
  | x :: rest => by
    simp only [dedupFirst, List.nodup_cons]
    refine ⟨fun hmem => ?_, (dedupFirst_nodup rest).filter _⟩
    have := List.of_mem_filter hmem
    simp at this

theorem dedupFirst_eq_self : ∀ {l : List String}, l.Nodup → dedupFirst l = l
  | [], _ => rfl
  | x :: rest, h => by
    obtain ⟨hx, hr⟩ := List.nodup_cons.mp h
    simp only [dedupFirst]
    rw [dedupFirst_eq_self hr, List.filter_eq_self.mpr]
    intro a ha
    simp only [decide_eq_true_eq]
    exact fun heq => hx (heq ▸ ha)

theorem dedupFirst_sublist : ∀ l : List String, List.Sublist (dedupFirst l) l
  | [] => by simp [dedupFirst]
  | x :: rest => by
    simp only [dedupFirst]
    exact ((List.filter_sublist _).trans (dedupFirst_sublist rest)).cons₂ x

theorem mem_dedupFirst (a : String) : ∀ l : List String, a ∈ dedupFirst l ↔ a ∈ l
  | [] => Iff.rfl
  | x :: rest => by
    simp only [dedupFirst, List.mem_cons, List.mem_filter, mem_dedupFirst a rest,
      decide_eq_true_eq]
    by_cases hax : a = x
    · subst hax
      simp
    · simp [hax]

theorem dedupFirst_length (l : List String) : (dedupFirst l).length = l.toFinset.card := by
  rw [← List.toFinset_card_of_nodup (dedupFirst_nodup l)]
  congr 1
  ext a
  simp [List.mem_toFinset, mem_dedupFirst]

theorem dedupFirst_append_mem (pre : List String) (x : String) (post : List String)
    (hx : x ∈ pre) :
    (dedupFirst (pre ++ x :: post)).length = (dedupFirst (pre ++ post)).length := by
  rw [dedupFirst_length, dedupFirst_length]
  congr 1
  ext a
  simp only [List.mem_toFinset, List.mem_append, List.mem_cons]
  constructor
  · rintro (h | rfl | h)
    exacts [Or.inl h, Or.inl hx, Or.inr h]
  · rintro (h | h)
    exacts [Or.inl h, Or.inr (Or.inr h)]

theorem addRandomOptions_length :
    ∀ (e : List String) (opts : List String), opts.Nodup → opts.length ≤ 4 →
      4 ≤ (dedupFirst (opts ++ e)).length → (addRandomOptions opts e).length = 4
  | [], opts, hnd, hle, had => by
    simp only [List.append_nil] at had
    rw [dedupFirst_eq_self hnd] at had
    show opts.length = 4
    omega
  | e0 :: es, opts, hnd, hle, had => by
    show (if 4 ≤ opts.length then opts
          else addRandomOptions (if opts.contains e0 then opts else opts ++ [e0]) es).length = 4
    by_cases h4 : 4 ≤ opts.length
    · rw [if_pos h4]
      omega
    · rw [if_neg h4]
      by_cases hc : opts.contains e0 = true
      · rw [if_pos hc]
        have hmem : e0 ∈ opts := by simpa using hc
        refine addRandomOptions_length es opts hnd hle ?_
        rwa [dedupFirst_append_mem opts e0 es hmem] at had
      · rw [if_neg hc]
        have hmem : e0 ∉ opts := by simpa using hc
        refine addRandomOptions_length es (opts ++ [e0]) ?_ (by simp; omega) ?_
        · rw [List.nodup_append]
          exact ⟨hnd, List.nodup_singleton e0,
            fun a ha hb => hmem (List.mem_singleton.mp hb ▸ ha)⟩
        · rwa [List.append_assoc]

/-- With adequate entropy the option loop reaches exactly four options. -/
theorem buildOptions_length (c : String) (e : List String)
    (h : 4 ≤ (dedupFirst (c :: e)).length) : (buildOptions c e).length = 4 :=
  addRandomOptions_length e [c] (List.nodup_singleton c) (by simp) h

/-! ### Helper lemmas on the validators -/

theorem validQuestion_spec (q : Json) (h : validQuestion q = true) :
    (∃ os, getField q "options" = some (.arr os) ∧ os.length = 4) ∧
    (∃ v, getField q "correct" = some (.num v) ∧ 1 ≤ v ∧ v ≤ 4) := by
  have h4 : (match getField q "options" with
      | some (.arr os) => decide (os.length = 4)
      | _ => false) = true := by
    unfold validQuestion at h
    simp only [Bool.and_eq_true] at h
    tauto
  have h7 : (match getField q "correct" with
      | some (.num v) => decide (1 ≤ v) && decide (v ≤ 4)
      | _ => false) = true := by
    unfold validQuestion at h
    simp only [Bool.and_eq_true] at h
    tauto
  refine ⟨?_, ?_⟩
  · rcases hopt : getField q "options" with _ | j
    · rw [hopt] at h4
      simp at h4
    · rw [hopt] at h4
      cases j with
      | arr os => exact ⟨os, rfl, by simpa using h4⟩
      | null => simp at h4
      | bool b => simp at h4
      | num v => simp at h4
      | str s => simp at h4
      | obj kvs => simp at h4
  · rcases hcor : getField q "correct" with _ | j
    · rw [hcor] at h7
      simp at h7
    · rw [hcor] at h7
      cases j with
      | num v =>
        simp only [Bool.and_eq_true, decide_eq_true_eq] at h7
        exact ⟨v, rfl, h7.1, h7.2⟩
      | null => simp at h7
      | bool b => simp at h7
      | str s => simp at h7
      | arr xs => simp at h7
      | obj kvs => simp at h7

theorem validateQuestionsArray_mem (j : Json) (q : Json)
    (h : validateQuestionsArray j = true) (hm : q ∈ jsonElems j) :
    validQuestion q = true := by
  cases j <;> simp [validateQuestionsArray, jsonElems] at h hm
  case arr elems =>
    exact h q hm

theorem mapJsStr_length : ∀ (os : List Json) (ss : List String),
    mapJsStr os = some ss → ss.length = os.length
  | [], ss, h => by
    simp only [mapJsStr] at h
    cases h
    rfl
  | o :: os, ss, h => by
    simp only [mapJsStr] at h
    rcases h1 : jsStrOfOr o with _ | s
    · rw [h1] at h
      exact absurd h (by simp)
    · rw [h1] at h
      rcases h2 : mapJsStr os with _ | ss2
      · rw [h2] at h
        exact absurd h (by simp)
      · rw [h2] at h
        cases h
        simp [mapJsStr_length os ss2 h2]

theorem strictLoop_mem : ∀ (qs : List Json), strictLoop qs = .ok true →
    ∀ q ∈ qs, strictCheckQ q = .ok true
  | [], _, q, hq => absurd hq (List.not_mem_nil q)
  | q0 :: rest, h, q, hq => by
    have hsplit : strictCheckQ q0 = .ok true ∧ strictLoop rest = .ok true := by
      revert h
      show (match strictCheckQ q0 with
            | .error () => Except.error ()
            | .ok false => .ok false
            | .ok true => strictLoop rest) = .ok true → _
      rcases strictCheckQ q0 with u | b
      · cases u
        simp
      · cases b <;> simp
    rcases List.mem_cons.mp hq with rfl | hmem
    · exact hsplit.1
    · exact strictLoop_mem rest hsplit.2 q hmem

theorem strictCheckQ_spec (q : Json) (h : strictCheckQ q = .ok true) :
    ∃ os, getField q "options" = some (.arr os) ∧ optionsDistinctCI os := by
  unfold strictCheckQ at h
  by_cases h1 : (!jsTruthy q) = true
  · rw [if_pos h1] at h
    exact absurd h (by simp)
  · rw [if_neg h1] at h
    by_cases h2 : (!isObjTypeof q) = true
    · rw [if_pos h2] at h
      exact absurd h (by simp)
    · rw [if_neg h2] at h
      by_cases h3 : (!jsTruthyOpt (getField q "question")) = true
      · rw [if_pos h3] at h
        exact absurd h (by simp)
      · rw [if_neg h3] at h
        rcases hopt : getField q "options" with _ | j
        · rw [hopt] at h
          exact absurd h (by simp)
        · rw [hopt] at h
          cases j with
          | arr os =>
            dsimp only at h
            by_cases hlen : os.length ≠ 4
            · rw [if_pos hlen] at h
              exact absurd h (by simp)
            · rw [if_neg hlen] at h
              rcases hmap : mapJsStr os with _ | ss
              · rw [hmap] at h
                exact absurd h (by simp)
              · rw [hmap] at h
                dsimp only at h
                refine ⟨os, rfl, ss, hmap, ?_⟩
                by_cases hded :
                    (dedupFirst (ss.map fun s => jsToLowerCase (jsStrTrim s))).length ≠ 4
                · rw [if_pos hded] at h
                  exact absurd h (by simp)
                · have hded4 := not_ne_iff.mp hded
                  have hkeys : (ss.map fun s => jsToLowerCase (jsStrTrim s)).length = 4 := by
                    rw [List.length_map, mapJsStr_length os ss hmap]
                    omega
                  have heq : dedupFirst (ss.map fun s => jsToLowerCase (jsStrTrim s))
                      = ss.map fun s => jsToLowerCase (jsStrTrim s) :=
                    (dedupFirst_sublist _).eq_of_length (by omega)
                  rw [← heq]
                  exact dedupFirst_nodup _
          | null => exact absurd h (by simp)
          | bool b => exact absurd h (by simp)
          | num v => exact absurd h (by simp)
          | str s => exact absurd h (by simp)
          | obj kvs => exact absurd h (by simp)

/-- The options field of a `localGenerator` question. -/
theorem localQuestionAt_options (S : List String) (i : Nat) (e : List String) :
    getField (localQuestionAt S i e) "options"
      = some (.arr ((buildOptions
          (stripNonWordKeepHyphen (correctWordOf ((S.get? i).getD ""))) e).map .str)) := rfl

/-- **C2, amended.**  Every question returned by the primary pipeline has
exactly 4 options (for the fallback path: whenever the random-token stream
is adequate, i.e. reaches four distinct options, which is exactly the loop's
termination condition) and a numeric `correct` field with `1 ≤ correct ≤ 4`
(not necessarily integral).  Pairwise case-insensitive distinctness is NOT
enforced by this pipeline's validator; it is enforced by the strict
validator of the sectioned variant, whose acceptance does imply pairwise
case-insensitively distinct options. -/
theorem c2_amended (text : String) (n : Nat) (oracle : String → Option String)
    (entropy : Nat → List String) (q : Json)
    (hent : ∀ i, i < min n (sentencesOf text).length →
      4 ≤ (dedupFirst (localCorrectAt text i :: entropy i)).length)
    (hq : q ∈ (generateQuizFromText text n oracle entropy).questions) :
    ((∃ os, getField q "options" = some (.arr os) ∧ os.length = 4) ∧
     (∃ v, getField q "correct" = some (.num v) ∧ 1 ≤ v ∧ v ≤ 4)) ∧
    (∀ qs, validateQuestionsArrayStrict (.arr qs) = .ok true →
      ∀ q2 ∈ qs, ∃ os, getField q2 "options" = some (.arr os) ∧ optionsDistinctCI os) := by
  refine ⟨?_, fun qs hv q2 hq2 => strictCheckQ_spec q2 (strictLoop_mem qs hv q2 hq2)⟩
  have hlocal : q ∈ localGenerator text n entropy →
      (∃ os, getField q "options" = some (.arr os) ∧ os.length = 4) ∧
      (∃ v, getField q "correct" = some (.num v) ∧ 1 ≤ v ∧ v ≤ 4) := by
    intro hmem
    unfold localGenerator at hmem
    rw [List.mem_map] at hmem
    obtain ⟨i, hi, hqi⟩ := hmem
    rw [List.mem_range] at hi
    subst hqi
    refine ⟨⟨(buildOptions (localCorrectAt text i) (entropy i)).map .str, ?_, ?_⟩,
            1, localQuestionAt_correct _ _ _, by norm_num, by norm_num⟩
    · exact localQuestionAt_options (sentencesOf text) i (entropy i)
    · rw [List.length_map]
      exact buildOptions_length _ _ (hent i hi)
  have hai : ∀ j : Json, validateQuestionsArray j = true → q ∈ jsonElems j →
      (∃ os, getField q "options" = some (.arr os) ∧ os.length = 4) ∧
      (∃ v, getField q "correct" = some (.num v) ∧ 1 ≤ v ∧ v ≤ 4) :=
    fun j hj hm => validQuestion_spec q (validateQuestionsArray_mem j q hj hm)
  by_cases hlen : (jsStrTrim text).length < 100
  · exfalso
    unfold generateQuizFromText at hq
    rw [quizRunShort text n oracle entropy hlen] at hq
    exact absurd hq (List.not_mem_nil q)
  · have spec := quizRunSpec text n oracle entropy hlen
    rcases ho : oracle (basePrompt text n) with _ | raw
    · have hr := spec.1 ho
      unfold generateQuizFromText at hq
      rw [hr] at hq
      exact hlocal hq
    · cases hv : validateQuestionsArray (tryParseAIResponse raw) with
      | true =>
        have hr := spec.2.1 raw ho hv
        unfold generateQuizFromText at hq
        rw [hr] at hq
        exact hai _ hv hq
      | false =>
        rcases hs : oracle (strictPrompt text n) with _ | raw2
        · have hr := spec.2.2.1 raw ho hv hs
          unfold generateQuizFromText at hq
          rw [hr] at hq
          exact hlocal hq
        · cases hv2 : validateQuestionsArray (tryParseAIResponse raw2) with
          | true =>
            have hr := spec.2.2.2.1 raw raw2 ho hv hs hv2
            unfold generateQuizFromText at hq
            rw [hr] at hq
            exact hai _ hv2 hq
          | false =>
            have hr := spec.2.2.2.2 raw raw2 ho hv hs hv2
            unfold generateQuizFromText at hq
            rw [hr] at hq
            exact hlocal hq

/-- **C2, witness** for the amended theorem: the fallback question built
from `mitoText`. -/
theorem c2_witness :
    ((∃ os, getField mito2Q0 "options" = some (.arr os) ∧ os.length = 4) ∧
     (∃ v, getField mito2Q0 "correct" = some (.num v) ∧ 1 ≤ v ∧ v ≤ 4)) ∧
    (∀ qs, validateQuestionsArrayStrict (.arr qs) = .ok true →
      ∀ q2 ∈ qs, ∃ os, getField q2 "options" = some (.arr os) ∧ optionsDistinctCI os) :=
  c2_amended mito2Text 5 (fun _ => none) mitoEntropy mito2Q0
    (by decide)
    (by rw [show (generateQuizFromText mito2Text 5 (fun _ => none) mitoEntropy).questions
            = localGenerator mito2Text 5 mitoEntropy from rfl]
        exact List.mem_map.mpr ⟨0, List.mem_range.mpr (by decide), rfl⟩)

/-! ### Helper lemmas for the repair-pass refinement (C8) -/

theorem findIdxNone_any (p : Char → Bool) (l : List Char) (h : l.findIdx? p = none) :
    l.any p = false := by
  rw [← List.findIdx?_isSome, h]
  rfl

theorem findIdxSome_any (p : Char → Bool) (l : List Char) (i : Nat)
    (h : l.findIdx? p = some i) : l.any p = true := by
  rw [← List.findIdx?_isSome, h]
  rfl

theorem drop_findIdx_eq_dropWhile (p : Char → Bool) :
    ∀ (l : List Char) (i : Nat), l.findIdx? p = some i →
      l.drop i = l.dropWhile (fun c => !p c)
  | [], i, h => by simp at h
  | c :: rest, i, h => by
    rw [List.findIdx?_cons] at h
    by_cases hp : p c = true
    · rw [if_pos hp] at h
      cases h
      rw [List.drop_zero, List.dropWhile_cons, if_neg (by simp [hp])]
    · rw [if_neg hp, List.findIdx?_succ] at h
      rcases hf : rest.findIdx? p with _ | j
      · rw [hf] at h
        simp at h
      · rw [hf] at h
        simp only [Option.map_some'] at h
        cases h
        rw [List.dropWhile_cons, if_pos (by simp [hp]), List.drop_succ_cons]
        exact drop_findIdx_eq_dropWhile p rest j hf

theorem any_reverse_eq (p : Char → Bool) (l : List Char) : l.reverse.any p = l.any p := by
  cases hl : l.any p
  · cases hr : l.reverse.any p
    · rfl
    · obtain ⟨x, hx, hpx⟩ := List.any_eq_true.mp hr
      rw [List.mem_reverse] at hx
      rw [List.any_eq_true.mpr ⟨x, hx, hpx⟩] at hl
      exact absurd hl (by simp)
  · obtain ⟨x, hx, hpx⟩ := List.any_eq_true.mp hl
    exact List.any_eq_true.mpr ⟨x, List.mem_reverse.mpr hx, hpx⟩

theorem jsLastIndexOf_bounds (c : Char) (l : List Char) :
    -1 ≤ jsLastIndexOf c l ∧ jsLastIndexOf c l < (l.length : Int) := by
  unfold jsLastIndexOf
  rcases h : l.reverse.findIdx? (· = c) with _ | i
  · dsimp only
    constructor
    · exact le_refl _
    · omega
  · dsimp only
    have hne : l ≠ [] := by
      rintro rfl
      simp at h
    have hlen : l.length ≠ 0 := by simpa [List.length_eq_zero] using hne
    constructor
    · omega
    · omega

theorem jsLastIndexOf_eq_neg1 (c : Char) (l : List Char) :
    jsLastIndexOf c l = -1 ↔ l.any (· = c) = false := by
  unfold jsLastIndexOf
  rcases h : l.reverse.findIdx? (· = c) with _ | i
  · dsimp only
    constructor
    · intro _
      have := findIdxNone_any (· = c) l.reverse h
      rwa [any_reverse_eq] at this
    · intro _
      rfl
  · dsimp only
    constructor
    · intro hv
      exfalso
      omega
    · intro hany
      exfalso
      have := findIdxSome_any (· = c) l.reverse i h
      rw [any_reverse_eq] at this
      rw [this] at hany
      exact absurd hany (by simp)

theorem anyCloseBr_split (l : List Char) :
    l.any isCloseBr = (l.any (· = '\x7d') || l.any (· = ']')) := by
  induction l with
  | nil => rfl
  | cons c t ih =>
    simp only [List.any_cons, ih, isCloseBr]
    cases hv : decide (c = '\x7d') <;> cases hw : decide (c = ']') <;> simp [hv, hw]

theorem maxLast_eq_neg1 (l : List Char) :
    (max (jsLastIndexOf '\x7d' l) (jsLastIndexOf ']' l) = -1) ↔
      l.any isCloseBr = false := by
  have b1 := jsLastIndexOf_bounds '\x7d' l
  have b2 := jsLastIndexOf_bounds ']' l
  rw [anyCloseBr_split]
  constructor
  · intro h
    have h1 : jsLastIndexOf '\x7d' l = -1 := le_antisymm (h ▸ le_max_left _ _) b1.1
    have h2 : jsLastIndexOf ']' l = -1 := le_antisymm (h ▸ le_max_right _ _) b2.1
    rw [(jsLastIndexOf_eq_neg1 _ _).mp h1, (jsLastIndexOf_eq_neg1 _ _).mp h2]
    rfl
  · intro h
    have h1 : l.any (· = '\x7d') = false := by
      cases hv : l.any (· = '\x7d')
      · rfl
      · rw [hv] at h
        exact absurd h (by simp)
    have h2 : l.any (· = ']') = false := by
      cases hv : l.any (· = ']')
      · rfl
      · rw [hv] at h
        simp at h
    rw [(jsLastIndexOf_eq_neg1 _ _).mpr h1, (jsLastIndexOf_eq_neg1 _ _).mpr h2]
    decide

theorem jsLastIndexOf_concat_self (c : Char) (l : List Char) :
    jsLastIndexOf c (l ++ [c]) = (l.length : Int) := by
  unfold jsLastIndexOf
  have hrev : (l ++ [c]).reverse = c :: l.reverse := by simp
  rw [hrev, List.findIdx?_cons, if_pos (by simp)]
  show (((l ++ [c]).length - 1 - 0 : Nat) : Int) = (l.length : Int)
  rw [List.length_append, List.length_singleton]
  congr 1

theorem jsLastIndexOf_concat_ne (c a : Char) (h : a ≠ c) (l : List Char) :
    jsLastIndexOf c (l ++ [a]) = jsLastIndexOf c l := by
  unfold jsLastIndexOf
  have hrev : (l ++ [a]).reverse = a :: l.reverse := by simp
  rw [hrev, List.findIdx?_cons, if_neg (by simp [h]), List.findIdx?_succ]
  rcases hf : l.reverse.findIdx? (· = c) with _ | i
  · rfl
  · show (((l ++ [a]).length - 1 - (i + 1) : Nat) : Int) = ((l.length - 1 - i : Nat) : Int)
    rw [List.length_append, List.length_singleton]
    congr 1
    omega

theorem takeLast_eq_rdropWhile (l : List Char) :
    (if max (jsLastIndexOf '\x7d' l) (jsLastIndexOf ']' l) ≠ -1
     then l.take ((max (jsLastIndexOf '\x7d' l) (jsLastIndexOf ']' l)).toNat + 1)
     else l)
    = if l.any isCloseBr then (l.reverse.dropWhile (fun c => !isCloseBr c)).reverse
      else l := by
  induction l using List.reverseRecOn with
  | nil => rfl
  | append_singleton t a ih =>
    by_cases ha : isCloseBr a = true
    · have hmax : max (jsLastIndexOf '\x7d' (t ++ [a])) (jsLastIndexOf ']' (t ++ [a]))
          = (t.length : Int) := by
        rcases (by simpa [isCloseBr] using ha : a = '\x7d' ∨ a = ']') with rfl | rfl
        · rw [jsLastIndexOf_concat_self, jsLastIndexOf_concat_ne ']' '\x7d' (by decide) t]
          exact max_eq_left (jsLastIndexOf_bounds ']' t).2.le
        · rw [jsLastIndexOf_concat_self, jsLastIndexOf_concat_ne '\x7d' ']' (by decide) t]
          exact max_eq_right (jsLastIndexOf_bounds '\x7d' t).2.le
      rw [hmax, if_pos (by omega)]
      have htk : ((t.length : Int)).toNat + 1 = t.length + 1 := by omega
      rw [htk]
      have htake : (t ++ [a]).take (t.length + 1) = t ++ [a] :=
        List.take_all_of_le (by simp)
      rw [htake]
      have hany : (t ++ [a]).any isCloseBr = true := by
        simp [List.any_append, List.any_cons, ha]
      rw [if_pos hany]
      have hrev : (t ++ [a]).reverse = a :: t.reverse := by simp
      rw [hrev, List.dropWhile_cons, if_neg (by simp [ha])]
      simp
    · have ha' : isCloseBr a = false := by
        cases hv : isCloseBr a
        · rfl
        · exact absurd hv ha
      have hne1 : a ≠ '\x7d' := by
        rintro rfl
        simp [isCloseBr] at ha'
      have hne2 : a ≠ ']' := by
        rintro rfl
        simp [isCloseBr] at ha'
      rw [jsLastIndexOf_concat_ne '\x7d' a hne1 t, jsLastIndexOf_concat_ne ']' a hne2 t]
      have hanyA : (t ++ [a]).any isCloseBr = t.any isCloseBr := by
        simp [List.any_append, List.any_cons, ha']
      have hrev : (t ++ [a]).reverse = a :: t.reverse := by simp
      have hdw : (t ++ [a]).reverse.dropWhile (fun c => !isCloseBr c)
          = t.reverse.dropWhile (fun c => !isCloseBr c) := by
        rw [hrev, List.dropWhile_cons, if_pos (by simp [ha'])]
      rw [hanyA, hdw]
      by_cases hm : max (jsLastIndexOf '\x7d' t) (jsLastIndexOf ']' t) = -1
      · have hany0 : t.any isCloseBr = false := (maxLast_eq_neg1 t).mp hm
        rw [hany0, if_neg (fun hC => hC hm)]
        simp
      · have hanyT : t.any isCloseBr = true := by
          cases hv : t.any isCloseBr
          · exact absurd ((maxLast_eq_neg1 t).mpr hv) hm
          · rfl
        rw [if_pos hm, if_pos hanyT]
        have hb1 := jsLastIndexOf_bounds '\x7d' t
        have hb2 := jsLastIndexOf_bounds ']' t
        have hlt : max (jsLastIndexOf '\x7d' t) (jsLastIndexOf ']' t) < (t.length : Int) :=
          max_lt hb1.2 hb2.2
        have hge : -1 ≤ max (jsLastIndexOf '\x7d' t) (jsLastIndexOf ']' t) :=
          le_trans hb1.1 (le_max_left _ _)
        have hz : (max (jsLastIndexOf '\x7d' t) (jsLastIndexOf ']' t)).toNat + 1 - t.length
            = 0 := by omega
        rw [List.take_append_eq_append_take, hz]
        simp only [List.take_zero, List.append_nil]
        rw [if_pos hm, if_pos hanyT] at ih
        exact ih

theorem cutFirst_eq (u : String) :
    cutToFirstBracket u
      = String.mk (if u.data.any isOpenBr then u.data.dropWhile (fun c => !isOpenBr c)
                   else u.data) := by
  unfold cutToFirstBracket
  rcases h : u.data.findIdx? isOpenBr with _ | i
  · have hany : u.data.any isOpenBr = false := findIdxNone_any isOpenBr u.data h
    rw [hany]
    rfl
  · have hany : u.data.any isOpenBr = true := findIdxSome_any isOpenBr u.data i h
    have hdrop := drop_findIdx_eq_dropWhile isOpenBr u.data i h
    rw [hany]
    simp only [if_true]
    exact congrArg String.mk hdrop

theorem cutLast_eq (u : String) :
    cutAfterLastClose u
      = String.mk (if u.data.any isCloseBr
                   then (u.data.reverse.dropWhile (fun c => !isCloseBr c)).reverse
                   else u.data) := by
  unfold cutAfterLastClose
  dsimp only
  have main := takeLast_eq_rdropWhile u.data
  by_cases hm : max (jsLastIndexOf '\x7d' u.data) (jsLastIndexOf ']' u.data) = -1
  · rw [if_neg (fun hC => hC hm)]
    rw [if_neg (fun hC => hC hm)] at main
    exact congrArg String.mk main
  · rw [if_pos hm]
    rw [if_pos hm] at main
    exact congrArg String.mk main

/-- **C8, amended.**  The repair pass of the pipeline's `repairJsonString`
performs exactly the following, for every input string: trim, cut to the
substring between the first `{`/`[` and the last `}`/`]` (leaving that side
alone when the delimiter is absent), strip trailing commas before closing
brackets, and strip control characters — with NO single-quote
normalization.  Formally it coincides with `specRepairCore`, the
`dropWhile`-based rendition of the spec's description minus the quote step. -/
theorem c8_amended (s : String) : repairJsonString s = specRepairCore s := by
  by_cases hs : s = ""
  · unfold repairJsonString specRepairCore
    rw [if_pos hs, if_pos hs]
  · unfold repairJsonString specRepairCore
    rw [if_neg hs, if_neg hs]
    dsimp only
    rw [cutFirst_eq (jsStrTrim s), cutLast_eq]

/-! ### Helper lemmas for section-content non-emptiness (C6) -/

theorem mem_dropWhile_of_mem (p : Char → Bool) :
    ∀ (l : List Char) (c : Char), c ∈ l → p c = false → c ∈ l.dropWhile p
  | [], c, hc, _ => absurd hc (List.not_mem_nil c)
  | x :: rest, c, hc, hp => by
    rw [List.dropWhile_cons]
    by_cases hx : p x = true
    · rw [if_pos hx]
      rcases List.mem_cons.mp hc with rfl | hmem
      · rw [hp] at hx
        exact absurd hx (by simp)
      · exact mem_dropWhile_of_mem p rest c hmem hp
    · rw [if_neg hx]
      exact hc

theorem mem_rdropWhile_of_mem (p : Char → Bool) (l : List Char) (c : Char)
    (hc : c ∈ l) (hp : p c = false) : c ∈ l.rdropWhile p := by
  rw [List.rdropWhile, List.mem_reverse]
  exact mem_dropWhile_of_mem p l.reverse c (List.mem_reverse.mpr hc) hp

theorem trimL_ne_nil_of_ink (l : List Char) (c : Char) (hc : c ∈ l)
    (hp : jsWs c = false) : trimL l ≠ [] :=
  List.ne_nil_of_mem
    (mem_rdropWhile_of_mem jsWs _ c (mem_dropWhile_of_mem jsWs l c hc hp) hp)

theorem ink_of_trimL_ne_nil (l : List Char) (h : trimL l ≠ []) :
    ∃ c, c ∈ trimL l ∧ jsWs c = false := by
  refine ⟨(trimL l).getLast h, List.getLast_mem h, ?_⟩
  have hlast := List.rdropWhile_last_not jsWs (l.dropWhile jsWs) h
  cases hv : jsWs ((trimL l).getLast h)
  · rfl
  · exact absurd hv hlast

theorem mem_collapseNLGo (c : Char) (hne : c ≠ '\n') :
    ∀ (p : Nat) (l : List Char), c ∈ l → c ∈ collapseNLGo p l
  | p, [], hc => absurd hc (List.not_mem_nil c)
  | p, x :: rest, hc => by
    simp only [collapseNLGo]
    by_cases hx : x = '\n'
    · rw [if_pos hx]
      rcases List.mem_cons.mp hc with rfl | hmem
      · exact absurd hx hne
      · exact mem_collapseNLGo c hne (p + 1) rest hmem
    · rw [if_neg hx]
      rcases List.mem_cons.mp hc with rfl | hmem
      · exact List.mem_append.mpr (Or.inr (List.mem_cons_self _ _))
      · exact List.mem_append.mpr
          (Or.inr (List.mem_cons.mpr (Or.inr (mem_collapseNLGo c hne 0 rest hmem))))

theorem buildSections_trimImage (L : List (Nat × String)) (A : List ImageObj) :
    ∀ (cands : List Cand), ∀ s ∈ buildSections L A cands, ∃ u, s.content = jsStrTrim u
  | [], s, hs => absurd hs (List.not_mem_nil s)
  | [c], s, hs => by
    rcases List.mem_singleton.mp hs with rfl
    exact ⟨_, rfl⟩
  | c :: c' :: rest, s, hs => by
    rcases List.mem_cons.mp hs with rfl | hmem
    · exact ⟨_, rfl⟩
    · exact buildSections_trimImage L A (c' :: rest) s hmem

theorem mergeSmallGo_trimImage (m : Nat) :
    ∀ (l : List SecMid) (cur : SecMid), (∃ u, cur.content = jsStrTrim u) →
      (∀ s ∈ l, ∃ u, s.content = jsStrTrim u) →
      ∀ s ∈ mergeSmallGo m cur l, ∃ u, s.content = jsStrTrim u
  | [], cur, hcur, _, s, hs => by
    rcases List.mem_singleton.mp hs with rfl
    exact hcur
  | t :: rest, cur, hcur, hl, s, hs => by
    simp only [mergeSmallGo] at hs
    by_cases hlen : cur.content.length < m
    · rw [if_pos hlen] at hs
      exact mergeSmallGo_trimImage m rest (mergeInto cur t) ⟨_, rfl⟩
        (fun x hx => hl x (List.mem_cons_of_mem t hx)) s hs
    · rw [if_neg hlen] at hs
      rcases List.mem_cons.mp hs with rfl | hmem
      · exact hcur
      · exact mergeSmallGo_trimImage m rest t (hl t (List.mem_cons_self t rest))
          (fun x hx => hl x (List.mem_cons_of_mem t hx)) s hmem

theorem mergeSmallGo_ne_nil (m : Nat) : ∀ (l : List SecMid) (cur : SecMid),
    mergeSmallGo m cur l ≠ []
  | [], cur => by simp [mergeSmallGo]
  | t :: rest, cur => by
    simp only [mergeSmallGo]
    by_cases hlen : cur.content.length < m
    · rw [if_pos hlen]
      exact mergeSmallGo_ne_nil m rest (mergeInto cur t)
    · rw [if_neg hlen]
      simp

theorem mergeSmallGo_dropLast_big (m : Nat) :
    ∀ (l : List SecMid) (cur : SecMid), ∀ s ∈ (mergeSmallGo m cur l).dropLast,
      m ≤ s.content.length
  | [], cur, s, hs => by simp [mergeSmallGo] at hs
  | t :: rest, cur, s, hs => by
    simp only [mergeSmallGo] at hs
    by_cases hlen : cur.content.length < m
    · rw [if_pos hlen] at hs
      exact mergeSmallGo_dropLast_big m rest (mergeInto cur t) s hs
    · rw [if_neg hlen] at hs
      rw [List.dropLast_cons_of_ne_nil (mergeSmallGo_ne_nil m rest t)] at hs
      rcases List.mem_cons.mp hs with rfl | hmem
      · omega
      · exact mergeSmallGo_dropLast_big m rest t s hmem

/-- **C6, amended.**  After the minimum-length merge pass, every emitted
section EXCEPT possibly the final one has nonempty content; the final
section, which the merge pass keeps regardless of size, can be empty (for
example when the last detected heading is the last line of the document). -/
theorem c6_amended (pageObjects : List PageObj) (minSectionChars : Nat)
    (allImages : List ImageObj) (s : SecOut)
    (hs : s ∈ (extractSectionsFromPagesWithAssets pageObjects minSectionChars
                 allImages).dropLast) :
    s.content ≠ "" := by
  unfold extractSectionsFromPagesWithAssets at hs
  dsimp only at hs
  rcases hc : candidatesOf (pageLinesOf pageObjects) with _ | ⟨c, cs⟩
  · rw [hc] at hs
    simp at hs
  · rw [hc] at hs
    rw [← List.map_dropLast] at hs
    obtain ⟨t, ht, rfl⟩ := List.mem_map.mp hs
    have hm1 : 1 ≤ (if minSectionChars ≠ 0 then minSectionChars
                    else DEFAULT_MIN_SECTION_CHARS) := by
      by_cases h0 : minSectionChars ≠ 0
      · rw [if_pos h0]
        omega
      · rw [if_neg h0]
        decide
    obtain ⟨x, xs, hbx⟩ : ∃ x xs,
        buildSections (pageLinesOf pageObjects) allImages (c :: cs) = x :: xs := by
      cases cs
      · exact ⟨_, _, rfl⟩
      · exact ⟨_, _, rfl⟩
    rw [hbx] at ht
    simp only [mergeSmall] at ht
    have hlen := mergeSmallGo_dropLast_big _ xs x t ht
    have htrim := mergeSmallGo_trimImage _ xs x
      (buildSections_trimImage (pageLinesOf pageObjects) allImages (c :: cs) x
        (hbx.symm ▸ List.mem_cons_self x xs))
      (fun y hy => buildSections_trimImage (pageLinesOf pageObjects) allImages (c :: cs) y
        (hbx.symm ▸ List.mem_cons_of_mem x hy))
      t (List.dropLast_sublist _ |>.mem ht)
    obtain ⟨u, hu⟩ := htrim
    have hne : t.content.data ≠ [] := by
      intro h0
      have hz : t.content.length = 0 := by
        rw [show t.content.length = t.content.data.length from rfl, h0]
        rfl
      omega
    have hink : ∃ cch, cch ∈ trimL u.data ∧ jsWs cch = false := by
      apply ink_of_trimL_ne_nil
      intro h0
      apply hne
      rw [hu]
      exact congrArg String.data (congrArg String.mk h0)
    obtain ⟨cch, hcm, hcw⟩ := hink
    have hcne : cch ≠ '\n' := by
      rintro rfl
      rw [show jsWs '\n' = true from rfl] at hcw
      exact absurd hcw (by simp)
    have hcm2 : cch ∈ collapseNL t.content.data := by
      rw [hu]
      exact mem_collapseNLGo cch hcne 0 _ hcm
    have htr := trimL_ne_nil_of_ink (collapseNL t.content.data) cch hcm2 hcw
    intro h0
    exact htr (congrArg String.data h0)

/-- **C6, witness** for the amended theorem: the first (non-final) section
of `secDocB` has nonempty content. -/
theorem c6_witness : secDocBFirst.content ≠ "" :=
  c6_amended secDocB 0 [] secDocBFirst
    (by rw [show (extractSectionsFromPagesWithAssets secDocB 0 []).dropLast
            = [secDocBFirst] from rfl]
        exact List.mem_singleton.mpr rfl)

/-! ### Helper lemmas for the noise-filter idempotence analysis (C9) -/

/-- **C9, counterexample.**  The claim: header/footer stripping is
idempotent.  On the single page `"Page 1\nPage 2\nPage 3\nSome body content
here"` the first pass strips the top two `Page n` lines, leaving `"Page 3"`
as the new first line; the second pass promotes and strips it too. -/
theorem c9_counterexample :
    (removeRepeatingHeadersFooters
        ["Page 1\nPage 2\nPage 3\nSome body content here"]).pagesWithoutHeaderFooter
      = ["Page 3\nSome body content here"] ∧
    (removeRepeatingHeadersFooters
        ["Page 3\nSome body content here"]).pagesWithoutHeaderFooter
      = ["Some body content here"] ∧
    ("Page 3\nSome body content here" : String) ≠ "Some body content here" :=
  ⟨rfl, rfl, by decide⟩

theorem dropWhile_false {α : Type} (p : α → Bool) (hp : ∀ x, p x = false) :
    ∀ l : List α, l.dropWhile p = l
  | [] => rfl
  | x :: xs => by rw [List.dropWhile_cons, if_neg (by simp [hp x])]

theorem rdropWhile_false {α : Type} (p : α → Bool) (hp : ∀ x, p x = false)
    (l : List α) : l.rdropWhile p = l := by
  rw [List.rdropWhile, dropWhile_false p hp, List.reverse_reverse]

theorem trimBoth_drop_fix {α : Type} (p : α → Bool) (l : List α) :
    ((l.dropWhile p).rdropWhile p).dropWhile p = (l.dropWhile p).rdropWhile p := by
  rw [List.dropWhile_eq_self_iff]
  intro hl
  have hpre := List.rdropWhile_prefix p (l.dropWhile p)
  have hlen : 0 < (l.dropWhile p).length := lt_of_lt_of_le hl hpre.length_le
  have hget := hpre.getElem (n := 0) hl
  have hx := List.dropWhile_eq_self_iff.mp (List.dropWhile_idempotent p l) hlen
  have hg : ((l.dropWhile p).rdropWhile p).get ⟨0, hl⟩
      = (l.dropWhile p).get ⟨0, hlen⟩ := by
    simp only [List.get_eq_getElem]
    simpa using hget
  rw [hg]
  exact hx

theorem trimL_idem (l : List Char) : trimL (trimL l) = trimL l := by
  show (((l.dropWhile jsWs).rdropWhile jsWs).dropWhile jsWs).rdropWhile jsWs = _
  rw [trimBoth_drop_fix jsWs l]
  exact List.rdropWhile_idempotent _ _

theorem trimFixed_eq (x : List Char) (h : trimL x = x) :
    x.dropWhile jsWs = x ∧ x.rdropWhile jsWs = x := by
  have hsuf : List.Sublist (x.dropWhile jsWs) x := (List.dropWhile_suffix jsWs).sublist
  have hpre : List.IsPrefix x (x.dropWhile jsWs) := by
    have hp := List.rdropWhile_prefix jsWs (x.dropWhile jsWs)
    rw [show (x.dropWhile jsWs).rdropWhile jsWs = trimL x from rfl, h] at hp
    exact hp
  have h1 : x.dropWhile jsWs = x := by
    have hlen : (x.dropWhile jsWs).length = x.length :=
      le_antisymm hsuf.length_le hpre.length_le
    exact (hpre.sublist.eq_of_length hlen.symm).symm
  refine ⟨h1, ?_⟩
  calc x.rdropWhile jsWs = (x.dropWhile jsWs).rdropWhile jsWs := by rw [h1]
    _ = x := h

theorem trimFixed_head (x : List Char) (h : trimL x = x) (hl : 0 < x.length) :
    jsWs (x.get ⟨0, hl⟩) = false := by
  have h1 := (trimFixed_eq x h).1
  have hx := List.dropWhile_eq_self_iff.mp h1 hl
  cases hv : jsWs (x.get ⟨0, hl⟩)
  · rfl
  · exact absurd hv hx

theorem trimFixed_last (x : List Char) (h : trimL x = x) (hl : x ≠ []) :
    jsWs (x.getLast hl) = false := by
  have h2 := (trimFixed_eq x h).2
  have hx := List.rdropWhile_eq_self_iff.mp h2 hl
  cases hv : jsWs (x.getLast hl)
  · rfl
  · exact absurd hv hx

theorem intercalate_singleNL (x : List Char) : List.intercalate ['\n'] [x] = x := by
  show ([x].intersperse ['\n']).flatten = x
  rw [List.intersperse_single]
  simp

theorem intercalate_cons₂NL (x y : List Char) (ys : List (List Char)) :
    List.intercalate ['\n'] (x :: y :: ys)
      = x ++ '\n' :: List.intercalate ['\n'] (y :: ys) := by
  show ((x :: y :: ys).intersperse ['\n']).flatten = _
  rw [List.intersperse_cons₂, List.flatten_cons, List.flatten_cons]
  rfl

theorem intercalate_cons_ne (x : List Char) (L : List (List Char)) (h : L ≠ []) :
    List.intercalate ['\n'] (x :: L) = x ++ '\n' :: List.intercalate ['\n'] L := by
  obtain ⟨y, ys, rfl⟩ : ∃ y ys, L = y :: ys := by
    cases L with
    | nil => exact absurd rfl h
    | cons y ys => exact ⟨_, _, rfl⟩
  exact intercalate_cons₂NL x y ys

theorem intercalate_concat (x : List Char) :
    ∀ (M : List (List Char)), M ≠ [] →
      List.intercalate ['\n'] (M ++ [x])
        = (List.intercalate ['\n'] M ++ ['\n']) ++ x
  | [], h => absurd rfl h
  | [m], _ => by
    rw [show ([m] ++ [x] : List (List Char)) = [m, x] from rfl,
        intercalate_cons₂NL, intercalate_singleNL, intercalate_singleNL]
    simp
  | m :: m' :: rest, _ => by
    rw [List.cons_append,
        intercalate_cons_ne m ((m' :: rest) ++ [x]) (by simp),
        intercalate_concat x (m' :: rest) (by simp),
        intercalate_cons_ne m (m' :: rest) (by simp)]
    simp

theorem dropWhile_ws_intercalate :
    ∀ (L : List (List Char)), (∀ x ∈ L, trimL x = x) →
      (List.intercalate ['\n'] L).dropWhile jsWs
        = List.intercalate ['\n'] (L.dropWhile (· = []))
  | [], _ => rfl
  | x :: rest, hQ => by
    by_cases hx : x = []
    · subst hx
      cases rest with
      | nil => rfl
      | cons y ys =>
        have hshape : List.intercalate ['\n'] ([] :: y :: ys)
            = '\n' :: List.intercalate ['\n'] (y :: ys) := by
          rw [intercalate_cons₂NL]
          rfl
        rw [hshape]
        rw [show ('\n' :: List.intercalate ['\n'] (y :: ys)).dropWhile jsWs
            = (List.intercalate ['\n'] (y :: ys)).dropWhile jsWs from by
          rw [List.dropWhile_cons, if_pos (by decide)]]
        rw [show (([] : List Char) :: y :: ys).dropWhile (· = [])
            = (y :: ys).dropWhile (· = []) from by
          rw [List.dropWhile_cons, if_pos (by simp)]]
        exact dropWhile_ws_intercalate (y :: ys) fun z hz => hQ z (List.mem_cons_of_mem _ hz)
    · obtain ⟨c, t, rfl⟩ : ∃ c t, x = c :: t := by
        cases x with
        | nil => exact absurd rfl hx
        | cons c t => exact ⟨c, t, rfl⟩
      have hhead : jsWs c = false :=
        trimFixed_head (c :: t) (hQ _ (List.mem_cons_self _ _)) (by simp)
      rw [show ((c :: t) :: rest).dropWhile (· = []) = (c :: t) :: rest from by
        rw [List.dropWhile_cons, if_neg (by simp)]]
      cases rest with
      | nil =>
        rw [show ([c :: t] : List (List Char)) = [c :: t] from rfl, intercalate_singleNL,
            List.dropWhile_cons, if_neg (by simp [hhead])]
      | cons y ys =>
        rw [intercalate_cons₂NL, List.cons_append, List.dropWhile_cons,
            if_neg (by simp [hhead])]

theorem rdropWhile_ws_intercalate (L : List (List Char)) :
    (∀ x ∈ L, trimL x = x) →
    (List.intercalate ['\n'] L).rdropWhile jsWs
      = List.intercalate ['\n'] (L.rdropWhile (· = [])) := by
  induction L using List.reverseRecOn with
  | nil =>
    intro _
    rfl
  | append_singleton M x ih =>
    intro hQ
    have hQM : ∀ z ∈ M, trimL z = z := fun z hz => hQ z (List.mem_append.mpr (Or.inl hz))
    have hQx : trimL x = x :=
      hQ x (List.mem_append.mpr (Or.inr (List.mem_singleton.mpr rfl)))
    by_cases hM : M = []
    · subst hM
      simp only [List.nil_append]
      by_cases hx : x = []
      · subst hx
        rfl
      · rw [intercalate_singleNL]
        rw [show ([x] : List (List Char)).rdropWhile (· = []) = [x] from by
          rw [List.rdropWhile_singleton, if_neg (by simp [hx])]]
        rw [intercalate_singleNL, List.rdropWhile_eq_self_iff]
        intro hl
        have hlast := trimFixed_last x hQx hl
        simp [hlast]
    · rw [intercalate_concat x M hM]
      by_cases hx : x = []
      · subst hx
        rw [show (List.intercalate ['\n'] M ++ ['\n']) ++ ([] : List Char)
            = List.intercalate ['\n'] M ++ ['\n'] from by simp]
        rw [List.rdropWhile_concat_pos jsWs (List.intercalate ['\n'] M) '\n' (by decide)]
        rw [ih hQM]
        rw [show (M ++ [([] : List Char)]).rdropWhile (· = []) = M.rdropWhile (· = []) from
          List.rdropWhile_concat_pos _ M [] (by simp)]
      · rw [show ((List.intercalate ['\n'] M ++ ['\n']) ++ x).rdropWhile jsWs
            = (List.intercalate ['\n'] M ++ ['\n']) ++ x from by
          rw [List.rdropWhile_eq_self_iff]
          intro hl
          rw [List.getLast_append_of_ne_nil hx]
          have hlast := trimFixed_last x hQx hx
          simp [hlast]]
        rw [show (M ++ [x]).rdropWhile (· = []) = M ++ [x] from
          List.rdropWhile_concat_neg _ M x (by simp [hx])]
        exact (intercalate_concat x M hM).symm

theorem trimL_intercalate (L : List (List Char)) (hQ : ∀ x ∈ L, trimL x = x) :
    trimL (List.intercalate ['\n'] L)
      = List.intercalate ['\n'] ((L.dropWhile (· = [])).rdropWhile (· = [])) := by
  rw [show trimL (List.intercalate ['\n'] L)
      = ((List.intercalate ['\n'] L).dropWhile jsWs).rdropWhile jsWs from rfl]
  rw [dropWhile_ws_intercalate L hQ]
  exact rdropWhile_ws_intercalate (L.dropWhile (· = []))
    (fun z hz => hQ z ((List.dropWhile_suffix _).sublist.mem hz))

theorem splitOn_not_mem (c : Char) : ∀ (l : List Char), ∀ part ∈ l.splitOn c, c ∉ part
  | [], part, hp => by
    simp [List.splitOn, List.splitOnP_nil] at hp
    subst hp
    exact List.not_mem_nil c
  | x :: xs, part, hp => by
    rw [List.splitOn, List.splitOnP_cons] at hp
    by_cases hx : (x == c) = true
    · rw [if_pos hx] at hp
      rcases List.mem_cons.mp hp with rfl | hmem
      · exact List.not_mem_nil c
      · exact splitOn_not_mem c xs part hmem
    · rw [if_neg hx] at hp
      have hxc : x ≠ c := by simpa using hx
      rcases hsp : xs.splitOnP (· == c) with _ | ⟨h0, t0⟩
      · exact absurd hsp (List.splitOnP_ne_nil _ xs)
      · rw [hsp] at hp
        simp only [List.modifyHead] at hp
        rcases List.mem_cons.mp hp with rfl | hmem
        · intro hc
          rcases List.mem_cons.mp hc with rfl | hch
          · exact hxc rfl
          · exact splitOn_not_mem c xs h0
              (by rw [List.splitOn, hsp]; exact List.mem_cons_self _ _) hch
        · exact splitOn_not_mem c xs part
            (by rw [List.splitOn, hsp]; exact List.mem_cons_of_mem _ hmem)

theorem stripPage_nil_eval (t : String) :
    stripPage [] [] t = jsStrTrim (strJoinNL (jsLines t)) := by
  unfold stripPage
  dsimp only
  rw [dropWhile_false (fun l => (([] : List String)).contains l) (fun _ => rfl),
      rdropWhile_false (fun l => (([] : List String)).contains l) (fun _ => rfl)]

theorem renorm_trim_join (l2 : List String)
    (hQ : ∀ x ∈ l2, trimL x.data = x.data ∧ '\n' ∉ x.data) :
    stripPage [] [] (jsStrTrim (strJoinNL l2)) = jsStrTrim (strJoinNL l2) := by
  rw [stripPage_nil_eval]
  have hQd : ∀ x ∈ l2.map String.data, trimL x = x := by
    intro x hx
    obtain ⟨s, hs, rfl⟩ := List.mem_map.mp hx
    exact (hQ s hs).1
  have hc : (jsStrTrim (strJoinNL l2)).data
      = List.intercalate ['\n']
          (((l2.map String.data).dropWhile (· = [])).rdropWhile (· = [])) := by
    show trimL (List.intercalate ['\n'] (l2.map String.data)) = _
    exact trimL_intercalate _ hQd
  rcases hM0 : ((l2.map String.data).dropWhile (· = [])).rdropWhile (· = []) with _ | ⟨y, ys⟩
  · have hempty : jsStrTrim (strJoinNL l2) = "" := by
      have hc2 := hc
      rw [hM0, show List.intercalate ['\n'] ([] : List (List Char)) = [] from rfl] at hc2
      calc jsStrTrim (strJoinNL l2) = String.mk (jsStrTrim (strJoinNL l2)).data := rfl
        _ = String.mk [] := by rw [hc2]
        _ = "" := rfl
    rw [hempty]
    rfl
  · have hsubM : ∀ l ∈ (y :: ys : List (List Char)), l ∈ l2.map String.data := by
      intro l hl
      exact ((List.rdropWhile_prefix _ _).sublist.trans
        (List.dropWhile_suffix _).sublist).mem (hM0 ▸ hl)
    have hsplit : (jsStrTrim (strJoinNL l2)).data.splitOn '\n' = y :: ys := by
      rw [hc, hM0]
      refine List.splitOn_intercalate _ '\n' ?_ (by simp)
      intro l hl
      obtain ⟨s, hs, rfl⟩ := List.mem_map.mp (hsubM l hl)
      exact (hQ s hs).2
    have hlines : jsLines (jsStrTrim (strJoinNL l2)) = (y :: ys).map String.mk := by
      unfold jsLines strSplitChar
      rw [hsplit, List.map_map]
      apply List.map_congr_left
      intro a ha
      have hfix : trimL a = a := hQd a (hsubM a ha)
      show String.mk (trimL a) = String.mk a
      rw [hfix]
    rw [hlines]
    have hjoin : strJoinNL ((y :: ys).map String.mk)
        = String.mk (List.intercalate ['\n'] (y :: ys)) := by
      show String.mk (List.intercalate ['\n'] (((y :: ys).map String.mk).map String.data)) = _
      have hid : ∀ a ∈ (y :: ys : List (List Char)), (String.data ∘ String.mk) a = id a :=
        fun a _ => rfl
      rw [List.map_map, List.map_congr_left hid, List.map_id]
    rw [hjoin]
    have hQM : ∀ z ∈ (y :: ys : List (List Char)), trimL z = z :=
      fun z hz => hQd z (hsubM z hz)
    have htr := trimL_intercalate (y :: ys) hQM
    have hfix1 : ((y :: ys : List (List Char)).dropWhile (· = [])) = y :: ys := by
      rw [← hM0]
      exact trimBoth_drop_fix _ _
    have hfix2 : ((y :: ys : List (List Char)).rdropWhile (· = [])) = y :: ys := by
      rw [← hM0]
      exact List.rdropWhile_idempotent _ _
    rw [hfix1, hfix2] at htr
    calc jsStrTrim (String.mk (List.intercalate ['\n'] (y :: ys)))
        = String.mk (trimL (List.intercalate ['\n'] (y :: ys))) := rfl
      _ = String.mk (List.intercalate ['\n'] (y :: ys)) := by rw [htr]
      _ = String.mk ((jsStrTrim (strJoinNL l2)).data) := by rw [hc, hM0]
      _ = jsStrTrim (strJoinNL l2) := rfl

theorem stripPage_nil_idem (hs fs : List String) (t : String) :
    stripPage [] [] (stripPage hs fs t) = stripPage hs fs t := by
  rw [show stripPage hs fs t
      = jsStrTrim (strJoinNL (((jsLines t).dropWhile (fun l => hs.contains l)).rdropWhile
          (fun l => fs.contains l))) from rfl]
  apply renorm_trim_join
  intro x hx
  have hx2 : x ∈ jsLines t :=
    ((List.rdropWhile_prefix _ _).sublist.trans (List.dropWhile_suffix _).sublist).mem hx
  obtain ⟨seg, hseg, rfl⟩ := List.mem_map.mp hx2
  constructor
  · exact trimL_idem seg.data
  · intro hmem
    have hsub : List.Sublist (trimL seg.data) seg.data :=
      (List.rdropWhile_prefix jsWs _).sublist.trans (List.dropWhile_suffix jsWs).sublist
    have hs2 : '\n' ∈ seg.data := hsub.mem hmem
    obtain ⟨part, hpart, rfl⟩ := List.mem_map.mp hseg
    exact splitOn_not_mem '\n' t.data part hpart hs2

/-- **C9, amended.**  Header/footer stripping is not idempotent in general:
a second application re-samples the top/bottom lines of the already-cleaned
pages and can promote and strip further lines (see the counterexample).
What does hold: whenever the cleaned pages promote no header and no footer
line, the second application returns the cleaned pages unchanged — each
cleaned page is a fixed point of the strip-and-renormalize map. -/
theorem c9_amended (pages : List String)
    (hH : promotedHeaders
        ((removeRepeatingHeadersFooters pages).pagesWithoutHeaderFooter) = [])
    (hF : promotedFooters
        ((removeRepeatingHeadersFooters pages).pagesWithoutHeaderFooter) = []) :
    removeRepeatingHeadersFooters
        ((removeRepeatingHeadersFooters pages).pagesWithoutHeaderFooter)
      = { pagesWithoutHeaderFooter :=
            (removeRepeatingHeadersFooters pages).pagesWithoutHeaderFooter,
          headerFooterInfo := { headers := [], footers := [] } } := by
  rw [show removeRepeatingHeadersFooters
        ((removeRepeatingHeadersFooters pages).pagesWithoutHeaderFooter)
      = { pagesWithoutHeaderFooter :=
            ((removeRepeatingHeadersFooters pages).pagesWithoutHeaderFooter).map
              (stripPage
                (promotedHeaders
                  ((removeRepeatingHeadersFooters pages).pagesWithoutHeaderFooter))
                (promotedFooters
                  ((removeRepeatingHeadersFooters pages).pagesWithoutHeaderFooter))),
          headerFooterInfo :=
            { headers := promotedHeaders
                ((removeRepeatingHeadersFooters pages).pagesWithoutHeaderFooter),
              footers := promotedFooters
                ((removeRepeatingHeadersFooters pages).pagesWithoutHeaderFooter) } }
      from rfl]
  rw [hH, hF]
  congr 1
  rw [show (removeRepeatingHeadersFooters pages).pagesWithoutHeaderFooter
      = pages.map (stripPage (promotedHeaders pages) (promotedFooters pages)) from rfl,
      List.map_map]
  apply List.map_congr_left
  intro t _
  exact stripPage_nil_idem _ _ t

/-- **C9, witness** for the amended theorem: a one-page document whose
single line promotes nothing, so the second pass is the identity. -/
theorem c9_witness :
    removeRepeatingHeadersFooters
        ((removeRepeatingHeadersFooters ["alpha beta gamma delta"]).pagesWithoutHeaderFooter)
      = { pagesWithoutHeaderFooter :=
            (removeRepeatingHeadersFooters ["alpha beta gamma delta"]).pagesWithoutHeaderFooter,
          headerFooterInfo := { headers := [], footers := [] } } :=
  c9_amended ["alpha beta gamma delta"] rfl rfl

/-! ### Helper lemmas on `clData` — the line view of content strings (C5) -/

theorem contentLines_eq_clData (s : String) : contentLines s = clData s.data := rfl

theorem spl_cons_newline (b : List Char) : ('\n' :: b).splitOn '\n' = [] :: b.splitOn '\n' := by
  rw [List.splitOn, List.splitOnP_cons, if_pos (by simp)]
  rfl

theorem spl_cons_ne (c : Char) (hc : c ≠ '\n') (b : List Char) :
    (c :: b).splitOn '\n' = (b.splitOn '\n').modifyHead (c :: ·) := by
  rw [List.splitOn, List.splitOnP_cons, if_neg (by simp [hc])]
  rfl

theorem splitOn_append_newline :
    ∀ a b : List Char, (a ++ '\n' :: b).splitOn '\n' = a.splitOn '\n' ++ b.splitOn '\n'
  | [], b => by
    rw [List.nil_append, spl_cons_newline]
    rfl
  | x :: a', b => by
    rw [List.cons_append]
    by_cases hx : x = '\n'
    · subst hx
      rw [spl_cons_newline, spl_cons_newline, splitOn_append_newline a' b, List.cons_append]
    · rw [spl_cons_ne x hx, spl_cons_ne x hx, splitOn_append_newline a' b]
      rcases hsp : a'.splitOn '\n' with _ | ⟨h0, t0⟩
      · exact absurd hsp (List.splitOnP_ne_nil _ a')
      · rfl

theorem clData_append (a b : List Char) :
    clData (a ++ '\n' :: b) = clData a ++ clData b := by
  unfold clData
  rw [splitOn_append_newline, List.map_append, List.filter_append]

theorem clData_nil : clData [] = [] := rfl

theorem clData_newline_prefix (b : List Char) : clData ('\n' :: b) = clData b := by
  unfold clData
  rw [spl_cons_newline, List.map_cons, List.filter_cons, if_neg (by decide)]

theorem clData_replicate_prefix : ∀ (k : Nat) (b : List Char),
    clData (List.replicate k '\n' ++ b) = clData b
  | 0, b => by rw [List.replicate_zero, List.nil_append]
  | k + 1, b => by
    rw [List.replicate_succ, List.cons_append, clData_newline_prefix,
        clData_replicate_prefix k b]

theorem trimL_cons_ws (x : Char) (hx : jsWs x = true) (h : List Char) :
    trimL (x :: h) = trimL h := by
  unfold trimL
  rw [List.dropWhile_cons, if_pos (by simp [hx])]

theorem clData_cons_ws (x : Char) (hx : jsWs x = true) (rest : List Char) :
    clData (x :: rest) = clData rest := by
  by_cases hnl : x = '\n'
  · subst hnl
    exact clData_newline_prefix rest
  · unfold clData
    rcases hsp : rest.splitOn '\n' with _ | ⟨h0, t0⟩
    · exact absurd hsp (List.splitOnP_ne_nil _ rest)
    · rw [spl_cons_ne x hnl, hsp, List.modifyHead_cons, List.map_cons, List.map_cons,
          trimL_cons_ws x hx h0]

theorem clData_ws_prefix : ∀ (w : List Char), (∀ c ∈ w, jsWs c = true) →
    ∀ a : List Char, clData (w ++ a) = clData a
  | [], _, a => by rw [List.nil_append]
  | x :: w', hw, a => by
    rw [List.cons_append, clData_cons_ws x (hw x (List.mem_cons_self _ _)),
        clData_ws_prefix w' (fun c hc => hw c (List.mem_cons_of_mem _ hc)) a]

theorem trimL_concat_ws (x : Char) (hx : jsWs x = true) (m : List Char) :
    trimL (m ++ [x]) = trimL m := by
  unfold trimL
  rw [List.dropWhile_append]
  by_cases he : (m.dropWhile jsWs).isEmpty = true
  · rw [if_pos he]
    rw [show List.dropWhile jsWs [x] = [] from by
      rw [List.dropWhile_cons, if_pos (by simp [hx])]
      rfl]
    rw [show m.dropWhile jsWs = [] from by simpa [List.isEmpty_iff] using he]
  · rw [if_neg he]
    exact List.rdropWhile_concat_pos jsWs (m.dropWhile jsWs) x (by simp [hx])

theorem splitOn_single_of_not_mem (u : List Char) (hu : '\n' ∉ u) :
    u.splitOn '\n' = [u] := by
  rw [List.splitOn]
  refine List.splitOnP_eq_single _ _ ?_
  intro x hx h
  exact hu (eq_of_beq h ▸ hx)

theorem lastNewline_decomp (m : List Char) (hm : '\n' ∈ m) :
    ∃ m1 m2, m = m1 ++ '\n' :: m2 ∧ '\n' ∉ m2 := by
  induction m using List.reverseRecOn with
  | nil => exact absurd hm (List.not_mem_nil _)
  | append_singleton m' z ih =>
    by_cases hz : z = '\n'
    · subst hz
      exact ⟨m', [], rfl, List.not_mem_nil _⟩
    · have hm' : '\n' ∈ m' := by
        rcases List.mem_append.mp hm with h1 | h1
        · exact h1
        · exact absurd (List.mem_singleton.mp h1).symm hz
      obtain ⟨m1, m2, heq, hnm⟩ := ih hm'
      subst heq
      refine ⟨m1, m2 ++ [z], by simp, ?_⟩
      intro hc
      rcases List.mem_append.mp hc with h1 | h1
      · exact hnm h1
      · exact hz (List.mem_singleton.mp h1).symm

theorem clData_concat_ws (x : Char) (hx : jsWs x = true) (m : List Char) :
    clData (m ++ [x]) = clData m := by
  by_cases hnl : x = '\n'
  · subst hnl
    rw [show m ++ ['\n'] = m ++ '\n' :: [] from rfl, clData_append, clData_nil,
        List.append_nil]
  · by_cases hm : '\n' ∈ m
    · obtain ⟨m1, m2, heq, hnm⟩ := lastNewline_decomp m hm
      subst heq
      rw [List.append_assoc, List.cons_append, clData_append, clData_append]
      congr 1
      unfold clData
      rw [splitOn_single_of_not_mem (m2 ++ [x]) (by
            intro hc
            rcases List.mem_append.mp hc with h1 | h1
            · exact hnm h1
            · exact hnl (List.mem_singleton.mp h1).symm),
          splitOn_single_of_not_mem m2 hnm]
      simp only [List.map_cons, List.map_nil]
      rw [show trimL (m2 ++ [x]) = trimL m2 from trimL_concat_ws x hx m2]
    · unfold clData
      rw [splitOn_single_of_not_mem (m ++ [x]) (by
            intro hc
            rcases List.mem_append.mp hc with h1 | h1
            · exact hm h1
            · exact hnl (List.mem_singleton.mp h1).symm),
          splitOn_single_of_not_mem m hm]
      simp only [List.map_cons, List.map_nil]
      rw [show trimL (m ++ [x]) = trimL m from trimL_concat_ws x hx m]

theorem clData_ws_suffix (w : List Char) :
    (∀ c ∈ w, jsWs c = true) → ∀ m, clData (m ++ w) = clData m := by
  induction w using List.reverseRecOn with
  | nil =>
    intro _ m
    rw [List.append_nil]
  | append_singleton w' z ih =>
    intro hw m
    rw [← List.append_assoc, clData_concat_ws z (hw z (by simp)) (m ++ w'),
        ih (fun c hc => hw c (List.mem_append.mpr (Or.inl hc))) m]

theorem rdropWhile_append_rtake (p : Char → Bool) (l : List Char) :
    l.rdropWhile p ++ l.rtakeWhile p = l := by
  rw [List.rdropWhile, List.rtakeWhile, ← List.reverse_append,
      List.takeWhile_append_dropWhile, List.reverse_reverse]

theorem clData_trim (l : List Char) : clData (trimL l) = clData l := by
  have h1 : clData l = clData (l.dropWhile jsWs) := by
    conv_lhs => rw [← List.takeWhile_append_dropWhile jsWs (l := l)]
    exact clData_ws_prefix (l.takeWhile jsWs) (fun c hc => List.mem_takeWhile_imp hc) _
  have h2 : clData (l.dropWhile jsWs) = clData (trimL l) := by
    conv_lhs => rw [← rdropWhile_append_rtake jsWs (l.dropWhile jsWs)]
    exact clData_ws_suffix _ (fun c hc => List.mem_rtakeWhile_imp hc) _
  exact (h2.symm).trans h1.symm

theorem clData_intercalate : ∀ (lines : List String),
    clData (List.intercalate ['\n'] (lines.map String.data))
      = (lines.map fun x => clData x.data).flatten
  | [] => rfl
  | [x] => by
    rw [List.map_cons, List.map_nil, intercalate_singleNL, List.map_cons, List.map_nil]
    simp
  | x :: y :: ys => by
    rw [List.map_cons (f := String.data),
        intercalate_cons_ne x.data ((y :: ys).map String.data) (by simp), clData_append,
        clData_intercalate (y :: ys)]
    simp only [List.map_cons, List.flatten_cons]

theorem contentLines_trim_join (lines : List String) :
    contentLines (jsStrTrim (strJoinNL lines)) = (lines.map fun x => contentLines x).flatten := by
  rw [contentLines_eq_clData]
  rw [show (jsStrTrim (strJoinNL lines)).data
      = trimL (List.intercalate ['\n'] (lines.map String.data)) from rfl]
  rw [clData_trim, clData_intercalate]
  rfl

theorem contentLines_single (x : String) (h1 : trimL x.data = x.data) (h2 : '\n' ∉ x.data) :
    contentLines x = if x = "" then [] else [x] := by
  rw [contentLines_eq_clData]
  unfold clData
  rw [splitOn_single_of_not_mem x.data h2]
  by_cases hx : x = ""
  · rw [if_pos hx]
    subst hx
    rfl
  · rw [if_neg hx, List.map_cons, List.map_nil, h1,
        show String.mk x.data = x from rfl, List.filter_cons, if_pos (by simp [hx]),
        List.filter_nil]

theorem flatten_singles : ∀ (lines : List String),
    (∀ x ∈ lines, trimL x.data = x.data ∧ '\n' ∉ x.data) →
    (lines.map fun x => contentLines x).flatten = lines.filter (· ≠ "")
  | [], _ => rfl
  | x :: rest, hQ => by
    rw [List.map_cons, List.flatten_cons,
        contentLines_single x (hQ x (List.mem_cons_self _ _)).1
          (hQ x (List.mem_cons_self _ _)).2,
        flatten_singles rest (fun z hz => hQ z (List.mem_cons_of_mem _ hz)),
        List.filter_cons]
    by_cases hx : x = ""
    · rw [if_pos hx, if_neg (by simp [hx]), List.nil_append]
    · rw [if_neg hx, if_pos (by simp [hx])]
      rfl

theorem contentLines_trim_join_nb (lines : List String)
    (hQ : ∀ x ∈ lines, trimL x.data = x.data ∧ '\n' ∉ x.data) :
    contentLines (jsStrTrim (strJoinNL lines)) = lines.filter (· ≠ "") := by
  rw [contentLines_trim_join, flatten_singles lines hQ]

theorem strJoin3 (a b : String) : a ++ "\n\n" ++ b = strJoinNL [a, "", b] := by
  have hdata : (a ++ "\n\n" ++ b).data = (strJoinNL [a, "", b]).data := by
    show (a.data ++ ['\n', '\n']) ++ b.data
        = List.intercalate ['\n'] [a.data, [], b.data]
    rw [intercalate_cons_ne a.data [[], b.data] (by simp),
        intercalate_cons_ne [] [b.data] (by simp), intercalate_singleNL]
    simp
  calc a ++ "\n\n" ++ b = String.mk (a ++ "\n\n" ++ b).data := rfl
    _ = String.mk (strJoinNL [a, "", b]).data := by rw [hdata]
    _ = strJoinNL [a, "", b] := rfl

theorem mergeInto_contentLines (s t : SecMid) :
    contentLines (mergeInto s t).content
      = contentLines s.content ++ contentLines t.content := by
  show contentLines (jsStrTrim (s.content ++ "\n\n" ++ t.content)) = _
  rw [strJoin3, contentLines_trim_join]
  rw [List.map_cons, List.map_cons, List.map_cons, List.map_nil, List.flatten_cons,
      List.flatten_cons]
  rw [show contentLines "" = [] from rfl]
  simp

theorem mergeSmallGo_contentLines (m : Nat) :
    ∀ (l : List SecMid) (cur : SecMid),
      ((mergeSmallGo m cur l).map fun s => contentLines s.content).flatten
        = contentLines cur.content ++ (l.map fun s => contentLines s.content).flatten
  | [], cur => by simp [mergeSmallGo]
  | t :: rest, cur => by
    simp only [mergeSmallGo]
    by_cases hlen : cur.content.length < m
    · rw [if_pos hlen, mergeSmallGo_contentLines m rest (mergeInto cur t),
          mergeInto_contentLines]
      simp [List.append_assoc]
    · rw [if_neg hlen, List.map_cons, List.flatten_cons,
          mergeSmallGo_contentLines m rest t, List.map_cons, List.flatten_cons]

theorem clFilter_pre : ∀ segs : List (List Char),
    ((segs.filter (· ≠ [])).map fun g => String.mk (trimL g)).filter (· ≠ "")
      = (segs.map fun g => String.mk (trimL g)).filter (· ≠ "")
  | [] => rfl
  | g :: rest => by
    by_cases hg : g = []
    · subst hg
      rw [List.filter_cons, if_neg (by decide), List.map_cons, List.filter_cons,
          if_neg (by decide), clFilter_pre rest]
    · rw [List.filter_cons, if_pos (by simp [hg]), List.map_cons, List.map_cons,
          List.filter_cons, List.filter_cons]
      simp only [clFilter_pre rest]

theorem nseg_filter : ∀ (k : Nat) (z : List Char),
    ((List.replicate k '\n' ++ z).splitOn '\n').filter (· ≠ [])
      = (z.splitOn '\n').filter (· ≠ [])
  | 0, z => by rw [List.replicate_zero, List.nil_append]
  | k + 1, z => by
    rw [List.replicate_succ, List.cons_append, spl_cons_newline, List.filter_cons,
        if_neg (by decide), nseg_filter k z]

theorem collapseNLGo_segs : ∀ (l : List Char) (p : Nat),
    (((collapseNLGo p l).splitOn '\n').filter (· ≠ [])
        = (l.splitOn '\n').filter (· ≠ [])) ∧
    (((collapseNLGo p l).splitOn '\n').head?
        = if p = 0 then (l.splitOn '\n').head? else some [])
  | [], p => by
    constructor
    · show ((List.replicate (if 3 ≤ p then 2 else p) '\n').splitOn '\n').filter (· ≠ []) = _
      rw [show List.replicate (if 3 ≤ p then 2 else p) '\n'
          = List.replicate (if 3 ≤ p then 2 else p) '\n' ++ [] from (List.append_nil _).symm,
          nseg_filter]
    · show ((List.replicate (if 3 ≤ p then 2 else p) '\n').splitOn '\n').head? = _
      by_cases hp : p = 0
      · subst hp
        rfl
      · rw [if_neg hp]
        obtain ⟨k', hk⟩ : ∃ k', (if 3 ≤ p then 2 else p) = k' + 1 := by
          by_cases h3 : 3 ≤ p
          · rw [if_pos h3]
            exact ⟨1, rfl⟩
          · rw [if_neg h3]
            exact ⟨p - 1, by omega⟩
        rw [hk, List.replicate_succ, spl_cons_newline]
        rfl
  | c :: rest, p => by
    by_cases hc : c = '\n'
    · subst hc
      have ih := collapseNLGo_segs rest (p + 1)
      constructor
      · show ((collapseNLGo (p + 1) rest).splitOn '\n').filter (· ≠ []) = _
        rw [ih.1, spl_cons_newline, List.filter_cons, if_neg (by decide)]
      · show ((collapseNLGo (p + 1) rest).splitOn '\n').head? = _
        rw [ih.2, if_neg (by omega)]
        by_cases hp : p = 0
        · rw [if_pos hp, spl_cons_newline]
          rfl
        · rw [if_neg hp]
    · have ih := collapseNLGo_segs rest 0
      have hout : collapseNLGo p (c :: rest)
          = List.replicate (if 3 ≤ p then 2 else p) '\n' ++ (c :: collapseNLGo 0 rest) := by
        simp only [collapseNLGo]
        rw [if_neg hc]
      rcases hS1 : (collapseNLGo 0 rest).splitOn '\n' with _ | ⟨a1, t1⟩
      · exact absurd hS1 (List.splitOnP_ne_nil _ _)
      · rcases hS2 : rest.splitOn '\n' with _ | ⟨a2, t2⟩
        · exact absurd hS2 (List.splitOnP_ne_nil _ _)
        · have hhead : a1 = a2 := by
            have h2 := ih.2
            rw [if_pos rfl, hS1, hS2] at h2
            simp only [List.head?_cons] at h2
            exact Option.some.inj h2
          subst hhead
          have hfil := ih.1
          rw [hS1, hS2] at hfil
          have htail : t1.filter (· ≠ []) = t2.filter (· ≠ []) := by
            rw [List.filter_cons, List.filter_cons] at hfil
            by_cases ha : (a1 : List Char) = []
            · rw [if_neg (by simp [ha]), if_neg (by simp [ha])] at hfil
              exact hfil
            · rw [if_pos (by simp [ha]), if_pos (by simp [ha])] at hfil
              exact (List.cons.inj hfil).2
          constructor
          · rw [hout, nseg_filter, spl_cons_ne c hc, spl_cons_ne c hc, hS1, hS2,
                List.modifyHead_cons, List.modifyHead_cons, List.filter_cons,
                List.filter_cons, if_pos (by simp), if_pos (by simp), htail]
          · rw [hout]
            by_cases hp : p = 0
            · subst hp
              rw [if_pos rfl,
                  show (if 3 ≤ 0 then 2 else 0) = 0 from rfl, List.replicate_zero,
                  List.nil_append, spl_cons_ne c hc, spl_cons_ne c hc, hS1, hS2,
                  List.modifyHead_cons, List.modifyHead_cons]
              rfl
            · rw [if_neg hp]
              obtain ⟨k', hk⟩ : ∃ k', (if 3 ≤ p then 2 else p) = k' + 1 := by
                by_cases h3 : 3 ≤ p
                · rw [if_pos h3]
                  exact ⟨1, rfl⟩
                · rw [if_neg h3]
                  exact ⟨p - 1, by omega⟩
              rw [hk, List.replicate_succ, List.cons_append, spl_cons_newline]
              rfl

theorem clData_collapse (l : List Char) : clData (collapseNL l) = clData l := by
  show clData (collapseNLGo 0 l) = clData l
  unfold clData
  rw [← clFilter_pre ((collapseNLGo 0 l).splitOn '\n'), ← clFilter_pre (l.splitOn '\n'),
      (collapseNLGo_segs l 0).1]

theorem normalizeSec_contentLines (t : SecMid) :
    contentLines (normalizeSec t).content = contentLines t.content := by
  show contentLines (jsStrTrim (String.mk (collapseNL t.content.data))) = _
  rw [contentLines_eq_clData, contentLines_eq_clData]
  show clData (trimL (collapseNL t.content.data)) = clData t.content.data
  rw [clData_trim, clData_collapse]

theorem candAux_cons_some (k : Nat) (pg : Nat) (ln : String) (rest : List (Nat × String))
    (hh : Heading) (hd : detectHeading ln = some hh) :
    candidatesAux k ((pg, ln) :: rest)
      = ⟨k, ln, pg, hh.title, hh.level⟩ :: candidatesAux (k + 1) rest := by
  simp only [candidatesAux]
  rw [hd]

theorem candAux_cons_none (k : Nat) (pg : Nat) (ln : String) (rest : List (Nat × String))
    (hd : detectHeading ln = none) :
    candidatesAux k ((pg, ln) :: rest) = candidatesAux (k + 1) rest := by
  simp only [candidatesAux]
  rw [hd]

theorem candAux_nil_mem : ∀ (l : List (Nat × String)) (k : Nat), candidatesAux k l = [] →
    ∀ x ∈ l, detectHeading x.2 = none
  | [], _, _, x, hx => absurd hx (List.not_mem_nil x)
  | (pg, ln) :: rest, k, h, x, hx => by
    rcases hd : detectHeading ln with _ | hh
    · rw [candAux_cons_none k pg ln rest hd] at h
      rcases List.mem_cons.mp hx with rfl | hmem
      · exact hd
      · exact candAux_nil_mem rest (k + 1) h x hmem
    · rw [candAux_cons_some k pg ln rest hh hd] at h
      exact absurd h (by simp)

theorem candAux_cons_decomp : ∀ (l : List (Nat × String)) (k : Nat) (c : Cand)
    (cs : List Cand), candidatesAux k l = c :: cs →
    ∃ pre pg post, l = pre ++ (pg, c.line) :: post ∧ c.index = k + pre.length ∧
      (∀ x ∈ pre, detectHeading x.2 = none) ∧ (∃ hh, detectHeading c.line = some hh) ∧
      candidatesAux (c.index + 1) post = cs
  | [], k, c, cs, h => absurd h (by simp [candidatesAux])
  | (pg, ln) :: rest, k, c, cs, h => by
    rcases hd : detectHeading ln with _ | hh
    · rw [candAux_cons_none k pg ln rest hd] at h
      obtain ⟨pre, pg2, post, hl, hidx, hpre, hdet, hrest⟩ :=
        candAux_cons_decomp rest (k + 1) c cs h
      refine ⟨(pg, ln) :: pre, pg2, post, by rw [hl]; rfl, by simp only [List.length_cons]; omega,
        ?_, hdet, hrest⟩
      intro x hx
      rcases List.mem_cons.mp hx with rfl | hmem
      · exact hd
      · exact hpre x hmem
    · rw [candAux_cons_some k pg ln rest hh hd] at h
      have hc : c = ⟨k, ln, pg, hh.title, hh.level⟩ := (List.cons.inj h).1.symm
      have hcs : candidatesAux (k + 1) rest = cs := (List.cons.inj h).2
      subst hc
      exact ⟨[], pg, rest, rfl, by simp, by simp, ⟨hh, hd⟩, hcs⟩

theorem pageLinesOf_NB (pages : List PageObj) :
    ∀ x ∈ pageLinesOf pages, x.2 ≠ "" ∧ trimL x.2.data = x.2.data ∧ '\n' ∉ x.2.data := by
  intro x hx
  unfold pageLinesOf at hx
  rw [List.mem_flatMap] at hx
  obtain ⟨p, hp, hxp⟩ := hx
  rw [List.mem_map] at hxp
  obtain ⟨ln, hln, rfl⟩ := hxp
  have hne : ln ≠ "" := by simpa using List.of_mem_filter hln
  have hmem := List.mem_of_mem_filter hln
  obtain ⟨seg, hseg, rfl⟩ := List.mem_map.mp hmem
  refine ⟨hne, trimL_idem seg.data, ?_⟩
  intro hmem2
  have hsub : List.Sublist (trimL seg.data) seg.data :=
    (List.rdropWhile_prefix jsWs _).sublist.trans (List.dropWhile_suffix jsWs).sublist
  obtain ⟨part, hpart, rfl⟩ := List.mem_map.mp hseg
  exact splitOn_not_mem '\n' p.text.data part hpart (hsub.mem hmem2)

theorem buildSections_cover (L : List (Nat × String)) (A : List ImageObj)
    (hNB : ∀ x ∈ L, x.2 ≠ "" ∧ trimL x.2.data = x.2.data ∧ '\n' ∉ x.2.data) :
    ∀ (cs : List Cand) (c : Cand) (post : List (Nat × String)),
      L.drop (c.index + 1) = post →
      candidatesAux (c.index + 1) post = cs →
      ((buildSections L A (c :: cs)).map fun s => contentLines s.content).flatten
        = (post.map (·.2)).filter fun l => (detectHeading l).isNone
  | [], c, post, hdrop, hcand => by
    rw [show buildSections L A [c]
        = [mkSecMid L A c (L.length - 1) (pageAt L (L.length - 1))] from rfl]
    simp only [List.map_cons, List.map_nil, List.flatten_cons, List.flatten_nil,
      List.append_nil]
    rw [show (mkSecMid L A c (L.length - 1) (pageAt L (L.length - 1))).content
        = jsStrTrim (strJoinNL (sliceLines L (c.index + 1) (L.length - 1))) from rfl]
    have hlen : post.length = L.length - (c.index + 1) := by
      rw [← hdrop, List.length_drop]
    have hslice : sliceLines L (c.index + 1) (L.length - 1) = post.map (·.2) := by
      unfold sliceLines
      rw [hdrop, List.take_all_of_le (by omega)]
    rw [hslice]
    have hQ : ∀ x ∈ post.map (·.2), trimL x.data = x.data ∧ '\n' ∉ x.data := by
      intro x hx
      obtain ⟨y, hy, rfl⟩ := List.mem_map.mp hx
      have hyL : y ∈ L := (List.drop_sublist _ _).mem (hdrop.symm ▸ hy)
      exact ⟨(hNB y hyL).2.1, (hNB y hyL).2.2⟩
    rw [contentLines_trim_join_nb _ hQ]
    have hnone : ∀ x ∈ post, detectHeading x.2 = none :=
      candAux_nil_mem post (c.index + 1) hcand
    have h1 : (post.map (·.2)).filter (· ≠ "") = post.map (·.2) := by
      refine List.filter_eq_self.mpr ?_
      intro a ha
      obtain ⟨y, hy, rfl⟩ := List.mem_map.mp ha
      have hyL : y ∈ L := (List.drop_sublist _ _).mem (hdrop.symm ▸ hy)
      simp [(hNB y hyL).1]
    have h2 : ((post.map (·.2)).filter fun l => (detectHeading l).isNone) = post.map (·.2) := by
      refine List.filter_eq_self.mpr ?_
      intro a ha
      obtain ⟨y, hy, rfl⟩ := List.mem_map.mp ha
      rw [hnone y hy]
      rfl
    rw [h1, h2]
  | c' :: rest, c, post, hdrop, hcand => by
    obtain ⟨pre, pg2, post', hl, hidx, hpre, ⟨hh, hdet⟩, hrest⟩ :=
      candAux_cons_decomp post (c.index + 1) c' rest hcand
    subst hl
    rw [show buildSections L A (c :: c' :: rest)
        = mkSecMid L A c (c'.index - 1) (pageAt L c'.index) :: buildSections L A (c' :: rest)
        from rfl]
    rw [List.map_cons, List.flatten_cons]
    have hdrop' : L.drop (c'.index + 1) = post' := by
      have h1 : c'.index + 1 = (c.index + 1) + (pre.length + 1) := by omega
      rw [h1, ← List.drop_drop, hdrop, ← List.drop_drop, List.drop_left]
      rfl
    have hcov := buildSections_cover L A hNB rest c' post' hdrop' hrest
    rw [hcov]
    rw [show (mkSecMid L A c (c'.index - 1) (pageAt L c'.index)).content
        = jsStrTrim (strJoinNL (sliceLines L (c.index + 1) (c'.index - 1))) from rfl]
    have hslice : sliceLines L (c.index + 1) (c'.index - 1) = pre.map (·.2) := by
      unfold sliceLines
      rw [hdrop, show c'.index - 1 + 1 - (c.index + 1) = pre.length from by omega,
          List.take_left]
    rw [hslice]
    have hmemL : ∀ y ∈ pre, y ∈ L := by
      intro y hy
      have hy2 : y ∈ pre ++ (pg2, c'.line) :: post' := List.mem_append.mpr (Or.inl hy)
      rw [← hdrop] at hy2
      exact (List.drop_sublist _ _).mem hy2
    have hQ : ∀ x ∈ pre.map (·.2), trimL x.data = x.data ∧ '\n' ∉ x.data := by
      intro x hx
      obtain ⟨y, hy, rfl⟩ := List.mem_map.mp hx
      exact ⟨(hNB y (hmemL y hy)).2.1, (hNB y (hmemL y hy)).2.2⟩
    rw [contentLines_trim_join_nb _ hQ]
    have h1 : (pre.map (·.2)).filter (· ≠ "") = pre.map (·.2) := by
      refine List.filter_eq_self.mpr ?_
      intro a ha
      obtain ⟨y, hy, rfl⟩ := List.mem_map.mp ha
      simp [(hNB y (hmemL y hy)).1]
    rw [h1, List.map_append, List.map_cons, List.filter_append, List.filter_cons]
    rw [show (detectHeading (pg2, c'.line).2).isNone = false from by rw [hdet]; rfl]
    rw [if_neg (by simp)]
    rw [show ((pre.map (·.2)).filter fun l => (detectHeading l).isNone) = pre.map (·.2) from by
      refine List.filter_eq_self.mpr ?_
      intro a ha
      obtain ⟨y, hy, rfl⟩ := List.mem_map.mp ha
      rw [hpre y hy]
      rfl]

theorem flatten_cl_norm (l : List SecMid) :
    ((l.map normalizeSec).map fun s => contentLines s.content).flatten
      = (l.map fun s => contentLines s.content).flatten := by
  rw [List.map_map]
  congr 1
  exact List.map_congr_left fun t _ => normalizeSec_contentLines t

theorem flatten_cl_mergeSmall (m : Nat) (l : List SecMid) :
    ((mergeSmall m l).map fun s => contentLines s.content).flatten
      = (l.map fun s => contentLines s.content).flatten := by
  cases l with
  | nil => rfl
  | cons x xs =>
    show ((mergeSmallGo m x xs).map fun s => contentLines s.content).flatten = _
    rw [mergeSmallGo_contentLines, List.map_cons, List.flatten_cons]

/-- **C5, counterexample.**  The claim: with at least one detected heading,
the concatenated section contents reconstruct ALL non-heading body lines.
`secDocC` has a body line before its first heading; that line appears in no
section. -/
theorem c5_counterexample :
    (candidatesOf (pageLinesOf secDocC)).length = 1 ∧
    ((extractSectionsFromPagesWithAssets secDocC 0 []).map
        fun s => contentLines s.content).flatten = [longBodyLine] ∧
    ((pageLinesOf secDocC).map (·.2)).filter (fun l => (detectHeading l).isNone)
      = ["some ordinary body line before the heading appears here", longBodyLine] ∧
    ([longBodyLine] : List String)
      ≠ ["some ordinary body line before the heading appears here", longBodyLine] :=
  ⟨rfl, rfl, rfl, by decide⟩

/-- **C5, amended.**  When at least one heading is detected, the in-order
concatenation of the emitted sections' content lines equals the body lines
STRICTLY AFTER the first detected heading, with the detected heading lines
removed — lines before the first heading are dropped, not covered. -/
theorem c5_amended (pages : List PageObj) (minSectionChars : Nat) (imgs : List ImageObj)
    (c0 : Cand) (cs : List Cand)
    (hc : candidatesOf (pageLinesOf pages) = c0 :: cs) :
    ((extractSectionsFromPagesWithAssets pages minSectionChars imgs).map
        fun s => contentLines s.content).flatten
      = headingFreeLinesAfter pages := by
  obtain ⟨pre, pg2, post, hl, hidx, hpre, hdet, hrest⟩ :=
    candAux_cons_decomp (pageLinesOf pages) 0 c0 cs hc
  have hdrop : (pageLinesOf pages).drop (c0.index + 1) = post := by
    rw [hl, show c0.index + 1 = pre.length + 1 from by omega, ← List.drop_drop,
        List.drop_left]
    rfl
  have hrhs : headingFreeLinesAfter pages
      = (post.map (·.2)).filter fun l => (detectHeading l).isNone := by
    unfold headingFreeLinesAfter
    dsimp only
    rw [hc]
    dsimp only
    rw [hdrop]
  rw [hrhs]
  unfold extractSectionsFromPagesWithAssets
  dsimp only
  rw [hc]
  rw [flatten_cl_norm, flatten_cl_mergeSmall]
  exact buildSections_cover (pageLinesOf pages) imgs (pageLinesOf_NB pages) cs c0 post
    hdrop hrest

/-- **C5, witness** for the amended theorem at `secDocB`, whose two headings
are `INTRODUCTION` (line 0) and `CONCLUSION` (line 2). -/
theorem c5_witness :
    ((extractSectionsFromPagesWithAssets secDocB 0 []).map
        fun s => contentLines s.content).flatten
      = headingFreeLinesAfter secDocB :=
  c5_amended secDocB 0 [] ⟨0, "INTRODUCTION", 1, "INTRODUCTION", 1⟩
    [⟨2, "CONCLUSION", 1, "CONCLUSION", 1⟩] rfl

end Quizway
